import Mathlib

/-!
# Verification of the MRVG-Pathfinder core (`src/mrvg`)

This file is a shallow embedding, in Lean 4, of the core of the
MRVG-Pathfinder repository: the polygon geometric kernel (`shapes.py`),
the incremental visibility-graph engine (`graph.py`), and the A* open/closed
set bookkeeping (`AStarSets` in `graph.py`), together with theorems settling
the specification claims about them.

Conventions of the embedding:

* Python IEEE-754 floats are idealized as exact rationals (`ℚ`).  All the
  branching the embedded code performs is on comparisons, cross products and
  divisions of such numbers, which `ℚ` models exactly; `x / 0` is only ever
  evaluated behind a zero test in the source, matching Lean's convention.
* Python exceptions (`assert`, `KeyError`, `NotImplementedError`) are
  modelled with `Except`/`Option`: an operation that raises returns the
  `error` branch, carrying the state at the moment of the raise.
* Python `dict`s are modelled as association lists in insertion order,
  `set`s as lists in insertion order (only membership and iteration are
  used by the embedded code; none of the proved properties depend on the
  iteration order of a Python set).
* Object identity (`id(...)`, `is`) is modelled with explicit numeric
  identifiers carried by the data.

The `node.py` present in the repository is an older revision than
`graph.py`: the weighted connection map (`Node.connections.map`),
`Node.point` and `Node.encompassing_obstacles` that `graph.py` uses are
absent from it.  Those parts are modelled from the spec, and each such
definition says so in its doc string.
-/

namespace MRVG

/-- A point / 2-vector in the plane, `shapes.Pair`. -/
abbrev Pair : Type := ℚ × ℚ

/-- `shapes._cross_product`. -/
def crossProduct (v1 v2 : Pair) : ℚ :=
  v1.1 * v2.2 - v1.2 * v2.1

/-- `shapes._vec_subtract`. -/
def vecSubtract (v1 v2 : Pair) : Pair :=
  (v1.1 - v2.1, v1.2 - v2.2)

/-- `shapes.Vertex`: one pre-baked vertex of a polygon. -/
structure Vertex where
  x : ℚ
  y : ℚ
  convex : Bool
  vecFromPrevVertex : Pair
  vecToNextVertex : Pair
deriving DecidableEq, Repr

/-- The result of `shapes._raycast_segment`: `Python True` (the ray fully
crosses the target), `Python False` (no intersection), or a grazing
segment `(start, stop, side)`. -/
inductive RcRes where
  | crossed : RcRes
  | miss : RcRes
  | seg (start stop : ℚ) (side : ℤ) : RcRes
deriving DecidableEq, Repr

/-- `shapes._colinear_segments_overlapping_region`.  Both segments are
assumed colinear by the caller; returns the overlapping ray-parameter
interval, or `miss` (`Python False`). -/
def colinearSegmentsOverlappingRegion (r_o r_d t_o t_d : Pair) : RcRes :=
  -- axis := 0 if abs(r_d[0]) > abs(r_d[1]) else 1
  let axis : Fin 2 := if |r_d.1| > |r_d.2| then 0 else 1
  let rdax : ℚ := if axis = 0 then r_d.1 else r_d.2
  let tdax : ℚ := if axis = 0 then t_d.1 else t_d.2
  let toax : ℚ := if axis = 0 then t_o.1 else t_o.2
  let roax : ℚ := if axis = 0 then r_o.1 else r_o.2
  if rdax = 0 then .miss
  else
    let k := tdax / rdax
    let r_i := (toax - roax) / rdax
    let r_f := r_i + k
    -- if k < 0: r_i, r_f, side = r_f, r_i, -1 else side = 1
    let r_i' := if k < 0 then r_f else r_i
    let r_f' := if k < 0 then r_i else r_f
    let side : ℤ := if k < 0 then -1 else 1
    if r_i' > 1 ∨ r_f' < 0 then .miss
    else .seg (max 0 r_i') (min 1 r_f') side

/-- `shapes._raycast_segment`: intersection of the ray `R(r) = r_o + r·r_d`
with the target segment `T(t) = t_o + t·t_d`, both for parameters in
`[0, 1]`. -/
def raycastSegment (r_o r_d t_o t_d : Pair) : RcRes :=
  let rdCrossTd := crossProduct r_d t_d
  let deltaO := vecSubtract t_o r_o
  if rdCrossTd = 0 then  -- parallel
    if crossProduct deltaO r_d ≠ 0 then .miss  -- not colinear
    else colinearSegmentsOverlappingRegion r_o r_d t_o t_d
  else
    let r_t := crossProduct deltaO t_d / rdCrossTd
    if ¬ (0 < r_t ∧ r_t < 1) then .miss
    else
      let t_t := crossProduct deltaO r_d / rdCrossTd
      if 0 < t_t ∧ t_t < 1 then .crossed
      else if t_t = 0 then .seg r_t r_t (if rdCrossTd > 0 then 1 else -1)
      else if t_t = 1 then .seg r_t r_t (if rdCrossTd > 0 then -1 else 1)
      else .miss

/-- `shapes.RaycastSegment`: a grazing segment `(start, stop, side)`. -/
abbrev RSeg : Type := ℚ × ℚ × ℤ

/-- `shapes.RaycastResult`: `segments = none` means the ray was fully
blocked. -/
structure RaycastResult where
  segments : Option (List RSeg)
deriving DecidableEq, Repr

/-- A fresh `RaycastResult()` (empty segment list). -/
def RaycastResult.init : RaycastResult := ⟨some []⟩

/-- The merging walk inside `RaycastResult.add_segment`: starting at the
bisect position, repeatedly examine the next stored segment; stop before a
segment whose start exceeds the added start; a different side means the
result is blocked (`none`); otherwise extend `stop` and drop the entry.
Returns the extended stop together with the remaining suffix. -/
def mergeLoop (start : ℚ) (side : ℤ) : ℚ → List RSeg → Option (ℚ × List RSeg)
  | stop, [] => some (stop, [])
  | stop, (pStart, pStop, pSide) :: rest =>
    if pStart > start then some (stop, (pStart, pStop, pSide) :: rest)
    else if pSide ≠ side then none
    else mergeLoop start side (max stop pStop) rest

/-- The loop of CPython's `bisect_left`/`bisect_right` (`Lib/bisect.py`):
`while lo < hi: mid = (lo+hi)//2; if goRight(a[mid]): lo = mid+1 else hi = mid`.
`goRightAt i` is `goRight` applied to the `i`-th element (arbitrary out of
range, never queried).  The fuel bounds `hi - lo`, which the loop strictly
decreases. -/
def bisectLoop (goRightAt : ℕ → Bool) : ℕ → ℕ → ℕ → ℕ
  | 0, lo, _ => lo
  | fuel + 1, lo, hi =>
    if lo < hi then
      let mid := (lo + hi) / 2
      if goRightAt mid then bisectLoop goRightAt fuel (mid + 1) hi
      else bisectLoop goRightAt fuel lo mid
    else lo

/-- `bisect.bisect_left(l, x)` where `isLt a` decides `a < x`: the search
moves right exactly past elements strictly below the probe. -/
def bisectLeft (l : List α) (isLt : α → Bool) : ℕ :=
  bisectLoop (fun i => match l.get? i with | some a => isLt a | none => false)
    l.length 0 l.length

/-- `bisect.bisect_right(l, x)` (used by `bisect.insort`) where `isLe a`
decides `¬ (x < a)`: the search moves right past elements not above the
probe. -/
def bisectRight (l : List α) (isLe : α → Bool) : ℕ :=
  bisectLoop (fun i => match l.get? i with | some a => isLe a | none => false)
    l.length 0 l.length

/-- If `goRightAt` holds exactly on indices below `n` (within range), the
bisect loop converges to `n` from any enclosing interval. -/
theorem bisectLoop_eq (goRightAt : ℕ → Bool) (len n : ℕ)
    (hiff : ∀ i, i < len → (goRightAt i = true ↔ i < n)) :
    ∀ fuel lo hi, lo ≤ n → n ≤ hi → hi ≤ len → hi - lo ≤ fuel →
      bisectLoop goRightAt fuel lo hi = n := by
  intro fuel
  induction fuel with
  | zero =>
    intro lo hi hlo hhi _ hfuel
    have : hi ≤ lo := Nat.le_of_sub_eq_zero (Nat.le_zero.mp hfuel)
    have hlon : lo = n := le_antisymm hlo (le_trans hhi this)
    simpa [bisectLoop] using hlon
  | succ fuel ih =>
    intro lo hi hlo hhi hhilen hfuel
    by_cases hlt : lo < hi
    · have hmidlt : (lo + hi) / 2 < hi := by omega
      have hmidge : lo ≤ (lo + hi) / 2 := by omega
      have hmidlen : (lo + hi) / 2 < len := lt_of_lt_of_le hmidlt hhilen
      by_cases hr : goRightAt ((lo + hi) / 2) = true
      · have hmn : (lo + hi) / 2 < n := (hiff _ hmidlen).mp hr
        have := ih ((lo + hi) / 2 + 1) hi hmn hhi hhilen (by omega)
        simpa [bisectLoop, hlt, hr] using this
      · have hmn : n ≤ (lo + hi) / 2 := by
          by_contra hcon
          exact hr ((hiff _ hmidlen).mpr (by omega))
        have := ih lo ((lo + hi) / 2) hlo hmn (le_of_lt hmidlen) (by omega)
        simpa [bisectLoop, hlt, hr] using this
    · have hlon : lo = n := by omega
      simpa [bisectLoop, hlt] using hlon

/-- `bisectLeft` (and, with its predicate, `bisectRight`) returns `n` when
the predicate holds exactly on the first `n` elements. -/
theorem bisectLeft_eq (l : List α) (isLt : α → Bool) (n : ℕ)
    (hn : n ≤ l.length)
    (hiff : ∀ i (hi : i < l.length), isLt (l.get ⟨i, hi⟩) = true ↔ i < n) :
    bisectLeft l isLt = n := by
  refine bisectLoop_eq _ l.length n ?_ l.length 0 l.length (Nat.zero_le n) hn
    le_rfl (by omega)
  intro i hi
  rw [List.get?_eq_get hi]
  simpa using hiff i hi

/-- A Boolean predicate that is downward closed along a list holds exactly
on the `takeWhile` prefix. -/
theorem takeWhile_prefix_iff (p : α → Bool) :
    ∀ (l : List α),
      (∀ i j (hi : i < l.length) (hj : j < l.length), i ≤ j →
        p (l.get ⟨j, hj⟩) = true → p (l.get ⟨i, hi⟩) = true) →
      ∀ i (hi : i < l.length),
        (p (l.get ⟨i, hi⟩) = true ↔ i < (l.takeWhile p).length)
  | [], _, i, hi => absurd hi (by simp)
  | a :: t, hdc, i, hi => by
    by_cases hpa : p a = true
    · cases i with
      | zero => simp [List.takeWhile, hpa]
      | succ i =>
        have ht := takeWhile_prefix_iff p t (fun i j hi hj hij hpj => by
          have := hdc (i + 1) (j + 1) (by simpa using hi) (by simpa using hj)
            (by omega) (by simpa using hpj)
          simpa using this)
        have hi' : i < t.length := by simpa using hi
        have := ht i hi'
        simpa [List.takeWhile, hpa] using this
    · cases i with
      | zero => simp [List.takeWhile, hpa]
      | succ i =>
        have hi' : i < t.length := by simpa using hi
        constructor
        · intro hpt
          exact absurd (hdc 0 (i + 1) (by simp) hi (by omega)
            (by simpa using hpt)) hpa
        · intro hlt
          simp [List.takeWhile, hpa] at hlt
    termination_by l => l.length

/-- `bisect.bisect_left(self.segments, (start, -inf, -2))`: in the tuple
order the probe sits strictly before every stored segment with the same
start (its second component `-inf` is below every `stop`), so a stored
tuple is strictly below the probe exactly when its start is below
`start`. -/
def segBisectLeft (segs : List RSeg) (start : ℚ) : ℕ :=
  bisectLeft segs (fun s => s.1 < start)

/-- `shapes.RaycastResult.add_segment`.  Returns the updated result and the
boolean returned by the Python method (`true` means the ray is blocked). -/
def RaycastResult.addSegment (r : RaycastResult) (segment : RSeg) :
    RaycastResult × Bool :=
  match r.segments with
  | none => (r, true)
  | some segs =>
    let (start, stop, side) := segment
    let i := segBisectLeft segs start
    let pre := segs.take i
    let rest := segs.drop i
    match mergeLoop start side stop rest with
    | none => (⟨none⟩, true)
    | some (stop', rest') => (⟨some (pre ++ (start, stop', side) :: rest')⟩, false)

/-- `shapes.RaycastResult.blocked`. -/
def RaycastResult.blocked (r : RaycastResult) : Bool :=
  r.segments.isNone

/-- `shapes.RaycastResult.grazed`. -/
def RaycastResult.grazed (r : RaycastResult) : Bool :=
  match r.segments with
  | none => false
  | some segs => segs.length > 0

/-- `shapes.RaycastResult.free`. -/
def RaycastResult.free (r : RaycastResult) : Bool :=
  match r.segments with
  | none => false
  | some segs => segs.length = 0

/-- The constructor kind of a polygon: a general `Polygon(ccw_vertices)` or
a `Rectangle(left, bottom, right, top)` subclass instance. -/
inductive PolyKind where
  | generic : PolyKind
  | rect (left bottom right top : ℚ) : PolyKind
deriving DecidableEq, Repr

/-- `shapes.Polygon._bake_vertices`: per-vertex convexity and edge vectors.
Python's `ccw_vertices[i - 1]` at `i = 0` is the last element. -/
def bakeVertices (ccw : List Pair) : List Vertex :=
  let n := ccw.length
  if n < 2 then
    ccw.map (fun v => ⟨v.1, v.2, true, (0, 0), (0, 0)⟩)
  else
    (List.range n).map (fun i =>
      let v := ccw.getD i (0, 0)
      let p := ccw.getD ((i + n - 1) % n) (0, 0)
      let nx := ccw.getD ((i + 1) % n) (0, 0)
      let pv : Pair := (v.1 - p.1, v.2 - p.2)
      let vn : Pair := (nx.1 - v.1, nx.2 - v.2)
      ⟨v.1, v.2, decide (pv.1 * vn.2 - pv.2 * vn.1 > 0), pv, vn⟩)

/-- `shapes.Polygon`: baked vertex ring plus the constructor kind (the kind
decides the `includes_point` override). -/
structure Polygon where
  kind : PolyKind
  vertices : List Vertex
deriving DecidableEq, Repr

/-- `Polygon(counter_clockwise_vertices)`. -/
def mkPolygon (ccw : List Pair) : Polygon :=
  ⟨.generic, bakeVertices ccw⟩

/-- `Rectangle(left, bottom, right, top)`: the 4-vertex CCW polygon. -/
def mkRectangle (left bottom right top : ℚ) : Polygon :=
  ⟨.rect left bottom right top,
   bakeVertices [(left, bottom), (right, bottom), (right, top), (left, top)]⟩

/-- `self.vertex_map[(x, y)]`: the dict comprehension lets a later vertex
with the same coordinates overwrite an earlier one, so lookup finds the
last matching vertex. -/
def Polygon.vertexMap (p : Polygon) (v : Pair) : Option Vertex :=
  p.vertices.reverse.find? (fun b => b.x = v.1 ∧ b.y = v.2)

/-- `shapes.Polygon.vertex_vector_direction_too_narrow`.  `none` models the
`KeyError` of `self.vertex_map[v]` when `v` is not a vertex. -/
def Polygon.vertexVectorDirectionTooNarrow (p : Polygon) (v : Pair) (x y : ℚ) :
    Option Bool :=
  match p.vertexMap v with
  | none => none
  | some vert =>
    let a := vert.vecFromPrevVertex
    let c := vert.vecToNextVertex
    let aCrossB := a.1 * y - a.2 * x
    let cCrossB := x * c.2 - y * c.1
    some (aCrossB * cCrossB < 0)

/-- `shapes.Polygon.includes_point`: the general polygon raises
`NotImplementedError` (modelled as `none`); `Rectangle` overrides it with
the axis-aligned containment test. -/
def Polygon.includesPoint (p : Polygon) (x y : ℚ) : Option Bool :=
  match p.kind with
  | .generic => none
  | .rect left bottom right top =>
    some (left ≤ x ∧ x ≤ right ∧ bottom ≤ y ∧ y ≤ top)

/-- `shapes.Polygon.raycast_segmented`: the per-edge intersection results,
one per vertex (empty when the polygon has fewer than 2 vertices). -/
def Polygon.raycastSegmented (p : Polygon) (origin direction : Pair) :
    List RcRes :=
  if p.vertices.length < 2 then []
  else p.vertices.map (fun v =>
    raycastSegment origin direction (v.x, v.y) v.vecToNextVertex)

/-- `shapes.Polygon.raycast`: feed every per-edge result into the
accumulated `RaycastResult`; a crossing, or a merge conflict inside
`add_segment`, blocks the ray (the Python early `return` is modelled by
the absorbing blocked state). -/
def Polygon.raycast (p : Polygon) (origin direction : Pair)
    (updateResult : RaycastResult) : RaycastResult :=
  (p.raycastSegmented origin direction).foldl
    (fun r res =>
      if r.segments = none then r
      else
        match res with
        | .miss => r
        | .crossed => ⟨none⟩
        | .seg s t side =>
          let (r', b) := r.addSegment (s, t, side)
          if b then ⟨none⟩ else r')
    updateResult

/-- An obstacle as held by a `Graph`: a polygon together with a numeric
identifier modelling Python object identity (`Polygon.__eq__` is `self is
other`, `__hash__` is `id(self)`). -/
structure Obst where
  uid : ℕ
  poly : Polygon
deriving DecidableEq, Repr

/-- The per-node state used by `graph.py`.  `convexTouches`, `allTouches`
and `concaveCount` mirror `TouchingObstacles` (`node.py`); `conns` is the
key set of the weighted connection map.

Modelled from the spec: the `node.py` in the repository is an older
revision without the `Node.encompassing_obstacles` name, the `Node.point`
property and the weighted `Connections.map` / `Connections.tuple` that
`graph.py` uses; per the spec, `connections` is "a mapping from
neighbouring `Node` to the Euclidean distance between them", maintained
symmetrically (`link` records both directions, `sever` removes both), so
the state stores the neighbour set and the recorded weight of a stored
neighbour is the Euclidean distance (see `connectionsMap`). -/
structure NodeData where
  convexTouches : List Obst
  allTouches : List ℕ
  concaveCount : ℕ
  conns : List Pair
deriving DecidableEq, Repr

/-- The node table and obstacle set of `graph.Graph`.  Python's `dict` and
`set` are modelled as lists in insertion order. -/
structure GraphState where
  obstacles : List Obst
  nodes : List (Pair × NodeData)
deriving DecidableEq, Repr

/-- `Graph()` with no obstacles. -/
def emptyGraph : GraphState := ⟨[], []⟩

/-- `self._nodes.get((x, y))`. -/
def findNode (g : GraphState) (p : Pair) : Option NodeData :=
  (g.nodes.find? (fun e => e.1 = p)).map (fun e => e.2)

/-- Apply a data update to every node entry (an entry's key never
changes). -/
def mapNodes (g : GraphState) (f : Pair → NodeData → NodeData) : GraphState :=
  { g with nodes := g.nodes.map (fun e => (e.1, f e.1 e.2)) }

/-- Update the node stored at `p` in place. -/
def modifyNode (g : GraphState) (p : Pair) (f : NodeData → NodeData) :
    GraphState :=
  mapNodes g (fun k d => if k = p then f d else d)

/-- The second half of `Graph._get_or_create_node`: insert a fresh node at
`p` (Python dicts append new keys in insertion order). -/
def createNode (g : GraphState) (p : Pair) : GraphState :=
  { g with nodes := g.nodes ++ [(p, ⟨[], [], 0, []⟩)] }

/-- `node.connections.sever()` with no argument: drop every connection of
`p`, removing `p` from each partner's map as well (`node.py`,
`Connections.sever`).  List removal is by filtering, modelling Python set
removal. -/
def severAllConnections (g : GraphState) (p : Pair) : GraphState :=
  mapNodes g (fun k d =>
    if k = p then { d with conns := [] }
    else { d with conns := d.conns.filter (fun c => c ≠ p) })

/-- `node.connections.sever(other)`: remove the connection between `p` and
`q` in both directions (a no-op on a side where it is absent, as in the
source's membership checks). -/
def severConnection (g : GraphState) (p q : Pair) : GraphState :=
  modifyNode (modifyNode g p (fun d => { d with conns := d.conns.filter (fun c => c ≠ q) }))
    q (fun d => { d with conns := d.conns.filter (fun c => c ≠ p) })

/-- `node.connections.link(other)`: record the connection in both
directions (`link_in` + `link_out`). -/
def linkNodes (g : GraphState) (p q : Pair) : GraphState :=
  modifyNode (modifyNode g p (fun d => { d with conns := d.conns ++ [q] }))
    q (fun d => { d with conns := d.conns ++ [p] })

/-- `TouchingObstacles.add(obstacle, is_convex)`: returns the updated graph
and `became_concave`.  A convex registration never makes a node concave; a
first concave registration does. -/
def addTouch (g : GraphState) (p : Pair) (ob : Obst) (isConvex : Bool) :
    GraphState × Bool :=
  match findNode g p with
  | none => (g, false)  -- unreachable: callers pass an existing node
  | some d =>
    let bc : Bool := if isConvex then false else decide (d.concaveCount = 0)
    let d' : NodeData :=
      { d with
        allTouches := d.allTouches ++ [ob.uid]
        convexTouches := if isConvex then d.convexTouches ++ [ob] else d.convexTouches
        concaveCount := if isConvex then d.concaveCount else d.concaveCount + 1 }
    (modifyNode g p (fun _ => d'), bc)

/-- `TouchingObstacles.update(obstacles, False)`: register every obstacle
of the list as a concave touch; returns `became_concave`. -/
def updateTouchesConcave (g : GraphState) (p : Pair) (obs : List Obst) :
    GraphState × Bool :=
  match findNode g p with
  | none => (g, false)  -- unreachable: callers pass an existing node
  | some d =>
    let bc : Bool := decide (d.concaveCount = 0 ∧ 0 < obs.length)
    let d' : NodeData :=
      { d with
        allTouches := d.allTouches ++ obs.map (fun o => o.uid)
        concaveCount := d.concaveCount + obs.length }
    (modifyNode g p (fun _ => d'), bc)

/-- `Graph._get_encompassing_obstacles(node)`, materialized as
`TouchingObstacles.update` does with `tuple(...)`: the obstacles whose
area contains the point.  `none` models the `NotImplementedError` raised
by a general polygon's `includes_point` during the scan. -/
def encompassingLoop (p : Pair) : List Obst → Option (List Obst)
  | [] => some []
  | ob :: rest =>
    match ob.poly.includesPoint p.1 p.2 with
    | none => none
    | some b =>
      (encompassingLoop p rest).map (fun l => if b then ob :: l else l)

/-- A fold in the `Except` monad; the error branch carries the state at
the moment the exception was raised. -/
def exFold (f : σ → α → Except ε σ) : σ → List α → Except ε σ
  | s, [] => .ok s
  | s, a :: l =>
    match f s a with
    | .error e => .error e
    | .ok s' => exFold f s' l

/-- `Graph.raycast(x0, y0, x1, y1, prioritize_obstacle)`.

Modelled from the spec: the snapshot's `Graph.raycast` passes the four
scalars straight to `Polygon.raycast(origin, direction, update_result)`,
an arity mismatch left by the same mid-refactor that outdated `node.py`;
the spec fixes the glue as `Polygon.raycast(o, d, result)` with origin
`(x0, y0)` and direction `(x1 - x0, y1 - y0)` ("the magnitude is the
length").  The prioritized obstacle is evaluated first and skipped in the
main scan; the scan stops as soon as blocking is proven (modelled by the
absorbing blocked state). -/
def graphRaycast (obstacles : List Obst) (prio : Option Obst)
    (x0 y0 x1 y1 : ℚ) : RaycastResult :=
  let origin : Pair := (x0, y0)
  let direction : Pair := (x1 - x0, y1 - y0)
  let r0 : RaycastResult := RaycastResult.init
  let r1 :=
    match prio with
    | none => r0
    | some ob => ob.poly.raycast origin direction r0
  if r1.blocked then r1
  else
    obstacles.foldl
      (fun r ob =>
        if (match prio with | some pr => decide (ob.uid = pr.uid) | none => false) then r
        else if r.blocked then r
        else ob.poly.raycast origin direction r)
      r1

/-- Phase A of `Graph._add_obstacle_locked`: create or update a node at
each convex vertex of the obstacle, collecting the new convex nodes. -/
def phaseAStep (ob : Obst) (acc : GraphState × List Pair) (v : Vertex) :
    Except GraphState (GraphState × List Pair) :=
  if ¬ v.convex then .ok acc
  else
    let g := acc.1
    let created := acc.2
    let p : Pair := (v.x, v.y)
    match findNode g p with
    | some _ =>
      -- existing node: register the convex touch (never makes it concave)
      let r := addTouch g p ob true
      .ok (if r.2 then severAllConnections r.1 p else r.1, created)
    | none =>
      let g0 := createNode g p
      match encompassingLoop p g0.obstacles with
      | none => .error g0
      | some enc =>
        -- cannot be convex because otherwise the node would've existed
        let g1 := (updateTouchesConcave g0 p enc).1
        let r := addTouch g1 p ob true
        let g3 := if r.2 then severAllConnections r.1 p else r.1
        let isConc : Bool :=
          match findNode g3 p with
          | some d => decide (0 < d.concaveCount)
          | none => false
        .ok (g3, if isConc then created else created ++ [p])

/-- Phase A over all vertices of the obstacle. -/
def phaseA (ob : Obst) (g : GraphState) :
    Except GraphState (GraphState × List Pair) :=
  exFold (phaseAStep ob) (g, []) ob.poly.vertices

/-- Phase B of `Graph._add_obstacle_locked`: register the new obstacle as
a concave touch on every pre-existing node it contains, severing the
connections of nodes that become concave. -/
def phaseBStep (ob : Obst) (g : GraphState) (p : Pair) :
    Except GraphState GraphState :=
  match findNode g p with
  | none => .ok g  -- unreachable: phase B iterates existing keys
  | some d =>
    if ob.uid ∈ d.allTouches then .ok g
    else
      match ob.poly.includesPoint p.1 p.2 with
      | none => .error g
      | some false => .ok g
      | some true =>
        -- must be concave because convex vertices were handled above
        let r := addTouch g p ob false
        .ok (if r.2 then severAllConnections r.1 p else r.1)

/-- Phase B over the node table. -/
def phaseB (ob : Obst) (g : GraphState) : Except GraphState GraphState :=
  exFold (phaseBStep ob) g (g.nodes.map (fun e => e.1))

/-- One connection test of phase C: sever `p ↔ q` if the direction is too
narrow at `p`'s vertex of the new obstacle, or else if the segment is
raycast-blocked (priority to the new obstacle). -/
def phaseCInner (ob : Obst) (p : Pair) (g : GraphState) (q : Pair) :
    Except GraphState GraphState :=
  match findNode g p with
  | none => .ok g  -- unreachable: the outer loop found the node
  | some d =>
    if d.convexTouches.any (fun o => o.uid = ob.uid) then
      match ob.poly.vertexVectorDirectionTooNarrow p (q.1 - p.1) (q.2 - p.2) with
      | none => .error g
      | some true => .ok (severConnection g p q)
      | some false =>
        .ok (if (graphRaycast g.obstacles (some ob) p.1 p.2 q.1 q.2).blocked
          then severConnection g p q else g)
    else
      .ok (if (graphRaycast g.obstacles (some ob) p.1 p.2 q.1 q.2).blocked
        then severConnection g p q else g)

/-- Phase C for one node: skip concave nodes, else walk the snapshot of
its connections (`node.connections.tuple`). -/
def phaseCStep (ob : Obst) (g : GraphState) (p : Pair) :
    Except GraphState GraphState :=
  match findNode g p with
  | none => .ok g
  | some d =>
    if 0 < d.concaveCount then .ok g
    else exFold (phaseCInner ob p) g d.conns

/-- Phase C over the node table. -/
def phaseC (ob : Obst) (g : GraphState) : Except GraphState GraphState :=
  exFold (phaseCStep ob) g (g.nodes.map (fun e => e.1))

/-- `any(o.vertex_vector_direction_too_narrow(...) for o in touches)` with
Python's lazy shortcut and exception propagation. -/
def anyTooNarrow (v : Pair) (dx dy : ℚ) : List Obst → Option Bool
  | [] => some false
  | ob :: rest =>
    match ob.poly.vertexVectorDirectionTooNarrow v dx dy with
    | none => none
    | some true => some true
    | some false => anyTooNarrow v dx dy rest

/-- One candidate test of phase D: link the new convex node `p` to `q`
unless `q` is `p`, concave or already connected, the direction is too
narrow at either end, or the segment is raycast-blocked. -/
def phaseDInner (ob : Obst) (p : Pair) (g : GraphState) (q : Pair) :
    Except GraphState GraphState :=
  if q = p then .ok g
  else
    match findNode g q, findNode g p with
    | some dq, some dp =>
      if 0 < dq.concaveCount then .ok g
      else if q ∈ dp.conns then .ok g
      else
        match anyTooNarrow p (q.1 - p.1) (q.2 - p.2) dp.convexTouches with
        | none => .error g
        | some true => .ok g
        | some false =>
          match anyTooNarrow q (p.1 - q.1) (p.2 - q.2) dq.convexTouches with
          | none => .error g
          | some true => .ok g
          | some false =>
            if (graphRaycast g.obstacles (some ob) p.1 p.2 q.1 q.2).blocked
            then .ok g
            else .ok (linkNodes g p q)
    | _, _ => .ok g  -- unreachable: both points are node keys

/-- Phase D for one new convex node: try to link it to every other node. -/
def phaseDStep (ob : Obst) (g : GraphState) (p : Pair) :
    Except GraphState GraphState :=
  exFold (phaseDInner ob p) g (g.nodes.map (fun e => e.1))

/-- Phase D over the new convex nodes collected in phase A. -/
def phaseD (ob : Obst) (g : GraphState) (created : List Pair) :
    Except GraphState GraphState :=
  exFold (phaseDStep ob) g created

/-- `Graph._add_obstacle_locked` (and `Graph.add_obstacle`; the mutex is
irrelevant to the sequential model): the duplicate assertion, the four
phases, then the insertion of the obstacle into the set.  The `error`
branch carries the state at the moment of the raise. -/
def addObstacle (g : GraphState) (ob : Obst) : Except GraphState GraphState :=
  if g.obstacles.any (fun o => o.uid = ob.uid) then .error g
  else
    match phaseA ob g with
    | .error e => .error e
    | .ok (g1, created) =>
      match phaseB ob g1 with
      | .error e => .error e
      | .ok g2 =>
        match phaseC ob g2 with
        | .error e => .error e
        | .ok g3 =>
          match phaseD ob g3 created with
          | .error e => .error e
          | .ok g4 => .ok { g4 with obstacles := g4.obstacles ++ [ob] }

/-- The graph states reachable from `Graph()` by successful
`add_obstacle` calls (a raising call does not produce a reachable
state). -/
inductive Reachable : GraphState → Prop
  | init : Reachable emptyGraph
  | step {g g' : GraphState} {ob : Obst} :
      Reachable g → addObstacle g ob = .ok g' → Reachable g'

/-- The connection key set of the node at `p` (empty when there is no such
node). -/
def connsOf (g : GraphState) (p : Pair) : List Pair :=
  ((findNode g p).map (fun d => d.conns)).getD []

/-- The Euclidean distance `math.dist(a, b)`. -/
noncomputable def euclidDist (a b : Pair) : ℝ :=
  Real.sqrt (((a.1 - b.1) ^ 2 + (a.2 - b.2) ^ 2 : ℚ) : ℝ)

/-- Modelled from the spec: the weighted `Node.connections.map` used by
`graph.py` is absent from the repository's (older) `node.py`; the spec
defines it as "a mapping from neighbouring `Node` to the Euclidean
distance between them", so the recorded weight of each stored neighbour
is the Euclidean distance to it. -/
noncomputable def connectionsMap (g : GraphState) (p : Pair) :
    List (Pair × ℝ) :=
  (connsOf g p).map (fun q => (q, euclidDist p q))

/-- The concave-touch count of the node at `p` (`0` when absent); the
node's `concave` flag is `0 < concCountOf g p`. -/
def concCountOf (g : GraphState) (p : Pair) : ℕ :=
  ((findNode g p).map (fun d => d.concaveCount)).getD 0

/-- The `all` touch set of the node at `p` (empty when absent). -/
def allTouchesOf (g : GraphState) (p : Pair) : List ℕ :=
  ((findNode g p).map (fun d => d.allTouches)).getD []

theorem find?_map_entries (l : List (Pair × NodeData))
    (f : Pair → NodeData → NodeData) (p : Pair) :
    ((l.map (fun e => (e.1, f e.1 e.2))).find? (fun e => e.1 = p)).map
        (fun e => e.2)
      = ((l.find? (fun e => e.1 = p)).map (fun e => e.2)).map (f p) := by
  induction l with
  | nil => simp
  | cons a t ih =>
    by_cases h : a.1 = p
    · subst h
      simp [List.find?_cons_of_pos]
    · rw [List.map_cons, List.find?_cons_of_neg _ (by simpa using h),
        List.find?_cons_of_neg _ (by simpa using h)]
      exact ih

theorem findNode_mapNodes (g : GraphState) (f : Pair → NodeData → NodeData)
    (p : Pair) :
    findNode (mapNodes g f) p = (findNode g p).map (f p) := by
  unfold findNode mapNodes
  simpa using find?_map_entries g.nodes f p

theorem findNode_modifyNode (g : GraphState) (p : Pair)
    (f : NodeData → NodeData) (q : Pair) :
    findNode (modifyNode g p f) q
      = if q = p then (findNode g q).map f else findNode g q := by
  rw [modifyNode, findNode_mapNodes]
  by_cases h : q = p
  · simp [h]
  · cases findNode g q <;> simp [h]

theorem find?_append_single (l : List (Pair × NodeData)) (p q : Pair)
    (d0 : NodeData) :
    (l ++ [(p, d0)]).find? (fun e => e.1 = q)
      = match l.find? (fun e => e.1 = q) with
        | some e => some e
        | none => if p = q then some (p, d0) else none := by
  induction l with
  | nil =>
    by_cases h : p = q <;> simp [List.find?, h]
  | cons a t ih =>
    by_cases h : a.1 = q
    · subst h
      simp [List.find?_cons_of_pos]
    · rw [List.cons_append, List.find?_cons_of_neg _ (by simpa using h),
        List.find?_cons_of_neg _ (by simpa using h)]
      exact ih

theorem findNode_createNode (g : GraphState) (p q : Pair) :
    findNode (createNode g p) q
      = match findNode g q with
        | some d => some d
        | none => if p = q then some ⟨[], [], 0, []⟩ else none := by
  unfold findNode createNode
  simp only [find?_append_single]
  cases g.nodes.find? (fun e => e.1 = q) with
  | none =>
    by_cases h : p = q <;> simp [h]
  | some e => simp

/-! Characterization of each mutation primitive in terms of `connsOf`,
`concCountOf`, `allTouchesOf` and key presence. -/

theorem mem_connsOf_severAll (g : GraphState) (p r x : Pair) :
    x ∈ connsOf (severAllConnections g p) r
      ↔ x ∈ connsOf g r ∧ r ≠ p ∧ x ≠ p := by
  unfold connsOf severAllConnections
  rw [findNode_mapNodes]
  cases h : findNode g r with
  | none => simp
  | some d =>
    by_cases hr : r = p
    · simp [hr]
    · simp [hr, List.mem_filter]

theorem concCountOf_severAll (g : GraphState) (p r : Pair) :
    concCountOf (severAllConnections g p) r = concCountOf g r := by
  unfold concCountOf severAllConnections
  rw [findNode_mapNodes]
  cases findNode g r with
  | none => simp
  | some d => by_cases hr : r = p <;> simp [hr]

theorem allTouchesOf_severAll (g : GraphState) (p r : Pair) :
    allTouchesOf (severAllConnections g p) r = allTouchesOf g r := by
  unfold allTouchesOf severAllConnections
  rw [findNode_mapNodes]
  cases findNode g r with
  | none => simp
  | some d => by_cases hr : r = p <;> simp [hr]

theorem isSome_findNode_severAll (g : GraphState) (p r : Pair) :
    (findNode (severAllConnections g p) r).isSome = (findNode g r).isSome := by
  unfold severAllConnections
  rw [findNode_mapNodes]
  cases findNode g r <;> simp

theorem mem_connsOf_severConnection (g : GraphState) (p q r x : Pair) :
    x ∈ connsOf (severConnection g p q) r
      ↔ x ∈ connsOf g r ∧ ¬(r = p ∧ x = q) ∧ ¬(r = q ∧ x = p) := by
  unfold connsOf severConnection
  rw [findNode_modifyNode, findNode_modifyNode]
  by_cases hqp : q = p
  · subst hqp
    by_cases hr : r = q
    · cases findNode g r with
      | none => simp [hr]
      | some d => simp [hr, List.mem_filter, and_assoc]
    · cases findNode g r <;> simp [hr]
  · by_cases hrq : r = q
    · have hrp : ¬ r = p := fun h => hqp (hrq ▸ h)
      cases findNode g r with
      | none => simp [hrq, hrp, hqp]
      | some d => simp [hrq, hrp, hqp, List.mem_filter, and_assoc, and_comm]
    · by_cases hrp : r = p
      · have hpq : ¬ p = q := fun h => hqp h.symm
        cases findNode g r with
        | none => simp [hrq, hrp, hpq]
        | some d => simp [hrq, hrp, hpq, List.mem_filter, and_assoc, and_comm]
      · cases findNode g r <;> simp [hrq, hrp]

theorem concCountOf_severConnection (g : GraphState) (p q r : Pair) :
    concCountOf (severConnection g p q) r = concCountOf g r := by
  unfold concCountOf severConnection
  rw [findNode_modifyNode, findNode_modifyNode]
  by_cases hqp : q = p <;> by_cases hq : r = q <;> by_cases hp : r = p <;>
    cases findNode g r <;> simp [hqp, hq, hp, apply_ite]

theorem allTouchesOf_severConnection (g : GraphState) (p q r : Pair) :
    allTouchesOf (severConnection g p q) r = allTouchesOf g r := by
  unfold allTouchesOf severConnection
  rw [findNode_modifyNode, findNode_modifyNode]
  by_cases hqp : q = p <;> by_cases hq : r = q <;> by_cases hp : r = p <;>
    cases findNode g r <;> simp [hqp, hq, hp, apply_ite]

theorem isSome_findNode_severConnection (g : GraphState) (p q r : Pair) :
    (findNode (severConnection g p q) r).isSome = (findNode g r).isSome := by
  unfold severConnection
  rw [findNode_modifyNode, findNode_modifyNode]
  by_cases hqp : q = p <;> by_cases hq : r = q <;> by_cases hp : r = p <;>
    cases findNode g r <;> simp [hqp, hq, hp, apply_ite]

theorem mem_connsOf_linkNodes (g : GraphState) (p q r x : Pair)
    (hpq : p ≠ q) (dp dq : NodeData)
    (hp : findNode g p = some dp) (hq : findNode g q = some dq) :
    x ∈ connsOf (linkNodes g p q) r
      ↔ x ∈ connsOf g r ∨ (r = p ∧ x = q) ∨ (r = q ∧ x = p) := by
  unfold connsOf linkNodes
  rw [findNode_modifyNode, findNode_modifyNode]
  by_cases hrq : r = q
  · have hrp : ¬ r = p := fun h => hpq (h.symm.trans hrq)
    subst hrq
    simp [hrp, hq, hpq, Ne.symm hpq]
  · by_cases hrp : r = p
    · subst hrp
      simp [hrq, hp, hpq, Ne.symm hpq]
    · cases findNode g r <;> simp [hrq, hrp]

theorem concCountOf_linkNodes (g : GraphState) (p q r : Pair) :
    concCountOf (linkNodes g p q) r = concCountOf g r := by
  unfold concCountOf linkNodes
  rw [findNode_modifyNode, findNode_modifyNode]
  by_cases hqp : q = p <;> by_cases hq : r = q <;> by_cases hp : r = p <;>
    cases findNode g r <;> simp [hqp, hq, hp, apply_ite]

theorem allTouchesOf_linkNodes (g : GraphState) (p q r : Pair) :
    allTouchesOf (linkNodes g p q) r = allTouchesOf g r := by
  unfold allTouchesOf linkNodes
  rw [findNode_modifyNode, findNode_modifyNode]
  by_cases hqp : q = p <;> by_cases hq : r = q <;> by_cases hp : r = p <;>
    cases findNode g r <;> simp [hqp, hq, hp, apply_ite]

theorem isSome_findNode_linkNodes (g : GraphState) (p q r : Pair) :
    (findNode (linkNodes g p q) r).isSome = (findNode g r).isSome := by
  unfold linkNodes
  rw [findNode_modifyNode, findNode_modifyNode]
  by_cases hqp : q = p <;> by_cases hq : r = q <;> by_cases hp : r = p <;>
    cases findNode g r <;> simp [hqp, hq, hp, apply_ite]

/-! Characterization of `addTouch`, `updateTouchesConcave` and
`createNode`. -/

theorem connsOf_addTouch (g : GraphState) (p : Pair) (ob : Obst) (c : Bool)
    (r : Pair) :
    connsOf (addTouch g p ob c).1 r = connsOf g r := by
  unfold addTouch
  cases h : findNode g p with
  | none => rfl
  | some d =>
    unfold connsOf
    rw [findNode_modifyNode]
    by_cases hr : r = p
    · subst hr
      simp [h]
    · simp [hr]

theorem addTouch_true_snd (g : GraphState) (p : Pair) (ob : Obst) :
    (addTouch g p ob true).2 = false := by
  unfold addTouch
  cases findNode g p <;> simp

theorem addTouch_false_snd (g : GraphState) (p : Pair) (ob : Obst)
    (d : NodeData) (h : findNode g p = some d) :
    (addTouch g p ob false).2 = decide (d.concaveCount = 0) := by
  unfold addTouch
  simp [h]

theorem concCountOf_addTouch_true (g : GraphState) (p : Pair) (ob : Obst)
    (r : Pair) :
    concCountOf (addTouch g p ob true).1 r = concCountOf g r := by
  unfold addTouch
  cases h : findNode g p with
  | none => rfl
  | some d =>
    unfold concCountOf
    rw [findNode_modifyNode]
    by_cases hr : r = p
    · subst hr
      simp [h]
    · simp [hr]

theorem concCountOf_addTouch_false_ne (g : GraphState) (p : Pair) (ob : Obst)
    (r : Pair) (hr : r ≠ p) :
    concCountOf (addTouch g p ob false).1 r = concCountOf g r := by
  unfold addTouch
  cases h : findNode g p with
  | none => rfl
  | some d =>
    unfold concCountOf
    rw [findNode_modifyNode]
    simp [hr]

theorem concCountOf_addTouch_false_self (g : GraphState) (p : Pair)
    (ob : Obst) (d : NodeData) (h : findNode g p = some d) :
    concCountOf (addTouch g p ob false).1 p = d.concaveCount + 1 := by
  unfold addTouch concCountOf
  simp [h, findNode_modifyNode]

theorem isSome_findNode_addTouch (g : GraphState) (p : Pair) (ob : Obst)
    (c : Bool) (r : Pair) :
    ((findNode (addTouch g p ob c).1 r).isSome) = (findNode g r).isSome := by
  unfold addTouch
  cases h : findNode g p with
  | none => rfl
  | some d =>
    rw [findNode_modifyNode]
    by_cases hr : r = p
    · subst hr
      simp [h]
    · simp [hr]

theorem allTouchesOf_addTouch_ne (g : GraphState) (p : Pair) (ob : Obst)
    (c : Bool) (r : Pair) (hr : r ≠ p) :
    allTouchesOf (addTouch g p ob c).1 r = allTouchesOf g r := by
  unfold addTouch
  cases h : findNode g p with
  | none => rfl
  | some d =>
    unfold allTouchesOf
    rw [findNode_modifyNode]
    simp [hr]

theorem allTouchesOf_addTouch_self (g : GraphState) (p : Pair) (ob : Obst)
    (c : Bool) (d : NodeData) (h : findNode g p = some d) :
    allTouchesOf (addTouch g p ob c).1 p = d.allTouches ++ [ob.uid] := by
  unfold addTouch allTouchesOf
  simp [h, findNode_modifyNode]

theorem connsOf_updateTouches (g : GraphState) (p : Pair) (obs : List Obst)
    (r : Pair) :
    connsOf (updateTouchesConcave g p obs).1 r = connsOf g r := by
  unfold updateTouchesConcave
  cases h : findNode g p with
  | none => rfl
  | some d =>
    unfold connsOf
    rw [findNode_modifyNode]
    by_cases hr : r = p
    · subst hr
      simp [h]
    · simp [hr]

theorem concCountOf_updateTouches_ne (g : GraphState) (p : Pair)
    (obs : List Obst) (r : Pair) (hr : r ≠ p) :
    concCountOf (updateTouchesConcave g p obs).1 r = concCountOf g r := by
  unfold updateTouchesConcave
  cases h : findNode g p with
  | none => rfl
  | some d =>
    unfold concCountOf
    rw [findNode_modifyNode]
    simp [hr]

theorem isSome_findNode_updateTouches (g : GraphState) (p : Pair)
    (obs : List Obst) (r : Pair) :
    (findNode (updateTouchesConcave g p obs).1 r).isSome
      = (findNode g r).isSome := by
  unfold updateTouchesConcave
  cases h : findNode g p with
  | none => rfl
  | some d =>
    rw [findNode_modifyNode]
    by_cases hr : r = p
    · subst hr
      simp [h]
    · simp [hr]

theorem allTouchesOf_updateTouches_ne (g : GraphState) (p : Pair)
    (obs : List Obst) (r : Pair) (hr : r ≠ p) :
    allTouchesOf (updateTouchesConcave g p obs).1 r = allTouchesOf g r := by
  unfold updateTouchesConcave
  cases h : findNode g p with
  | none => rfl
  | some d =>
    unfold allTouchesOf
    rw [findNode_modifyNode]
    simp [hr]

theorem connsOf_createNode (g : GraphState) (p r : Pair) :
    connsOf (createNode g p) r = connsOf g r := by
  unfold connsOf
  rw [findNode_createNode]
  cases findNode g r with
  | some d => simp
  | none => by_cases h : p = r <;> simp [h]

theorem concCountOf_createNode (g : GraphState) (p r : Pair) :
    concCountOf (createNode g p) r = concCountOf g r := by
  unfold concCountOf
  rw [findNode_createNode]
  cases findNode g r with
  | some d => simp
  | none => by_cases h : p = r <;> simp [h]

theorem allTouchesOf_createNode (g : GraphState) (p r : Pair) :
    allTouchesOf (createNode g p) r = allTouchesOf g r := by
  unfold allTouchesOf
  rw [findNode_createNode]
  cases findNode g r with
  | some d => simp
  | none => by_cases h : p = r <;> simp [h]

theorem isSome_findNode_createNode_of (g : GraphState) (p r : Pair)
    (h : (findNode g r).isSome = true) :
    (findNode (createNode g p) r).isSome = true := by
  rw [findNode_createNode]
  cases hr : findNode g r with
  | some d => simp
  | none => rw [hr] at h; simp at h

theorem findNode_createNode_self (g : GraphState) (p : Pair)
    (h : findNode g p = none) :
    findNode (createNode g p) p = some ⟨[], [], 0, []⟩ := by
  rw [findNode_createNode, h]
  simp

/-! The invariants of claims C2 and C3 and their preservation. -/

/-- I1 / P1 (relation part): the connection relation is symmetric. -/
def SymConns (g : GraphState) : Prop :=
  ∀ p q : Pair, q ∈ connsOf g p → p ∈ connsOf g q

/-- I2 / P2: a concave node (positive concave-touch count) has no
connections. -/
def ConcIso (g : GraphState) : Prop :=
  ∀ p q : Pair, 0 < concCountOf g p → q ∉ connsOf g p

/-- Connections only point at existing nodes. -/
def ClosedConns (g : GraphState) : Prop :=
  ∀ p q : Pair, q ∈ connsOf g p → (findNode g q).isSome = true

/-- The conjunction maintained across `add_obstacle`. -/
def Inv (g : GraphState) : Prop :=
  SymConns g ∧ ConcIso g ∧ ClosedConns g

theorem inv_transfer (g g' : GraphState)
    (hc : ∀ p, connsOf g' p = connsOf g p)
    (hs : ∀ p, (findNode g p).isSome = true → (findNode g' p).isSome = true)
    (hcc : ∀ p, 0 < concCountOf g' p → connsOf g p = [] ∨ 0 < concCountOf g p) :
    Inv g → Inv g' := by
  rintro ⟨hsym, hiso, hcl⟩
  refine ⟨fun p q hq => ?_, fun p q hcnt hq => ?_, fun p q hq => ?_⟩
  · rw [hc] at hq ⊢
    exact hsym p q hq
  · rw [hc] at hq
    rcases hcc p hcnt with hnil | hpos
    · rw [hnil] at hq
      simp at hq
    · exact hiso p q hpos hq
  · rw [hc] at hq
    exact hs q (hcl p q hq)

theorem inv_severAll (g : GraphState) (p : Pair) (h : Inv g) :
    Inv (severAllConnections g p) := by
  obtain ⟨hsym, hiso, hcl⟩ := h
  refine ⟨fun a b hb => ?_, fun a b hcnt hb => ?_, fun a b hb => ?_⟩
  · rw [mem_connsOf_severAll] at hb ⊢
    exact ⟨hsym a b hb.1, hb.2.2, hb.2.1⟩
  · rw [mem_connsOf_severAll] at hb
    rw [concCountOf_severAll] at hcnt
    exact hiso a b hcnt hb.1
  · rw [mem_connsOf_severAll] at hb
    rw [isSome_findNode_severAll]
    exact hcl a b hb.1

/-- `ConcIso` for a post-`severAll` state, assuming isolation holds away
from the severed node: used when the severed node just became concave. -/
theorem concIso_severAll_of (g : GraphState) (p : Pair)
    (h : ∀ a b : Pair, a ≠ p → 0 < concCountOf g a → b ∉ connsOf g a) :
    ConcIso (severAllConnections g p) := by
  intro a b hcnt hb
  rw [mem_connsOf_severAll] at hb
  rw [concCountOf_severAll] at hcnt
  exact h a b hb.2.1 hcnt hb.1

theorem sym_severAll (g : GraphState) (p : Pair) (h : SymConns g) :
    SymConns (severAllConnections g p) := by
  intro a b hb
  rw [mem_connsOf_severAll] at hb ⊢
  exact ⟨h a b hb.1, hb.2.2, hb.2.1⟩

theorem closed_severAll (g : GraphState) (p : Pair) (h : ClosedConns g) :
    ClosedConns (severAllConnections g p) := by
  intro a b hb
  rw [mem_connsOf_severAll] at hb
  rw [isSome_findNode_severAll]
  exact h a b hb.1

theorem inv_severConnection (g : GraphState) (p q : Pair) (h : Inv g) :
    Inv (severConnection g p q) := by
  obtain ⟨hsym, hiso, hcl⟩ := h
  refine ⟨fun a b hb => ?_, fun a b hcnt hb => ?_, fun a b hb => ?_⟩
  · rw [mem_connsOf_severConnection] at hb ⊢
    refine ⟨hsym a b hb.1, ?_, ?_⟩
    · rintro ⟨rfl, rfl⟩
      exact hb.2.2 ⟨rfl, rfl⟩
    · rintro ⟨rfl, rfl⟩
      exact hb.2.1 ⟨rfl, rfl⟩
  · rw [mem_connsOf_severConnection] at hb
    rw [concCountOf_severConnection] at hcnt
    exact hiso a b hcnt hb.1
  · rw [mem_connsOf_severConnection] at hb
    rw [isSome_findNode_severConnection]
    exact hcl a b hb.1

theorem concCountOf_eq_of_findNode (g : GraphState) (p : Pair) (d : NodeData)
    (h : findNode g p = some d) : concCountOf g p = d.concaveCount := by
  simp [concCountOf, h]

theorem inv_linkNodes (g : GraphState) (p q : Pair) (dp dq : NodeData)
    (hpq : p ≠ q) (hp : findNode g p = some dp) (hq : findNode g q = some dq)
    (hdp : dp.concaveCount = 0) (hdq : dq.concaveCount = 0)
    (h : Inv g) : Inv (linkNodes g p q) := by
  obtain ⟨hsym, hiso, hcl⟩ := h
  refine ⟨fun a b hb => ?_, fun a b hcnt hb => ?_, fun a b hb => ?_⟩
  · rw [mem_connsOf_linkNodes g p q a b hpq dp dq hp hq] at hb
    rw [mem_connsOf_linkNodes g p q b a hpq dp dq hp hq]
    rcases hb with hb | ⟨rfl, rfl⟩ | ⟨rfl, rfl⟩
    · exact Or.inl (hsym a b hb)
    · exact Or.inr (Or.inr ⟨rfl, rfl⟩)
    · exact Or.inr (Or.inl ⟨rfl, rfl⟩)
  · rw [mem_connsOf_linkNodes g p q a b hpq dp dq hp hq] at hb
    rw [concCountOf_linkNodes] at hcnt
    rcases hb with hb | ⟨rfl, rfl⟩ | ⟨rfl, rfl⟩
    · exact hiso a b hcnt hb
    · rw [concCountOf_eq_of_findNode g a dp hp, hdp] at hcnt
      exact absurd hcnt (by simp)
    · rw [concCountOf_eq_of_findNode g a dq hq, hdq] at hcnt
      exact absurd hcnt (by simp)
  · rw [mem_connsOf_linkNodes g p q a b hpq dp dq hp hq] at hb
    rw [isSome_findNode_linkNodes]
    rcases hb with hb | ⟨rfl, rfl⟩ | ⟨rfl, rfl⟩
    · exact hcl a b hb
    · simp [hq]
    · simp [hp]

theorem sym_transfer (g g' : GraphState)
    (hc : ∀ p, connsOf g' p = connsOf g p) (h : SymConns g) : SymConns g' := by
  intro p q hq
  rw [hc] at hq ⊢
  exact h p q hq

theorem closed_transfer (g g' : GraphState)
    (hc : ∀ p, connsOf g' p = connsOf g p)
    (hs : ∀ p, (findNode g p).isSome = true → (findNode g' p).isSome = true)
    (h : ClosedConns g) : ClosedConns g' := by
  intro p q hq
  rw [hc] at hq
  exact hs q (h p q hq)

/-- Phase A bookkeeping: every collected "new convex node" exists, is not
concave, and already registers the new obstacle among its touches (so
phase B skips it and it stays non-concave until phase D links it). -/
def ACC (ob : Obst) (g : GraphState) (l : List Pair) : Prop :=
  ∀ e ∈ l, (findNode g e).isSome = true ∧ concCountOf g e = 0 ∧
    ob.uid ∈ allTouchesOf g e

theorem exFold_preserve (f : σ → α → Except ε σ) (P : σ → Prop) :
    ∀ (l : List α), (∀ s a, a ∈ l → ∀ s', P s → f s a = .ok s' → P s') →
      ∀ s s', P s → exFold f s l = .ok s' → P s'
  | [], _, s, s', hs, hfold => by
    unfold exFold at hfold
    cases hfold
    exact hs
  | a :: l, h, s, s', hs, hfold => by
    unfold exFold at hfold
    cases hf : f s a with
    | error e => rw [hf] at hfold; cases hfold
    | ok s1 =>
      rw [hf] at hfold
      exact exFold_preserve f P l
        (fun s a ha => h s a (List.mem_cons_of_mem _ ha)) s1 s'
        (h s a (List.mem_cons_self _ _) s1 hs hf) hfold

theorem phaseAStep_preserve (ob : Obst) (v : Vertex)
    (acc acc' : GraphState × List Pair)
    (h : Inv acc.1 ∧ ACC ob acc.1 acc.2)
    (hstep : phaseAStep ob acc v = .ok acc') :
    Inv acc'.1 ∧ ACC ob acc'.1 acc'.2 := by
  obtain ⟨hinv, hacc⟩ := h
  unfold phaseAStep at hstep
  by_cases hconv : v.convex = true
  case neg =>
    simp [hconv] at hstep
    cases hstep
    exact ⟨hinv, hacc⟩
  rw [if_neg (not_not_intro hconv)] at hstep
  dsimp only at hstep
  set g := acc.1 with hgdef
  set p : Pair := (v.x, v.y) with hpdef
  cases hfind : findNode g p with
  | some d =>
    rw [hfind] at hstep
    dsimp only at hstep
    rw [addTouch_true_snd, if_neg Bool.false_ne_true] at hstep
    cases hstep
    constructor
    · refine inv_transfer g _ (fun r => connsOf_addTouch g p ob true r)
        (fun r hr => by rw [isSome_findNode_addTouch]; exact hr)
        (fun r hr => Or.inr (by rwa [concCountOf_addTouch_true] at hr)) hinv
    · intro e he
      obtain ⟨h1, h2, h3⟩ := hacc e he
      refine ⟨by rw [isSome_findNode_addTouch]; exact h1,
        by rw [concCountOf_addTouch_true]; exact h2, ?_⟩
      by_cases hep : e = p
      · subst hep
        rw [allTouchesOf_addTouch_self g p ob true d hfind]
        exact List.mem_append_right _ (by simp)
      · rw [allTouchesOf_addTouch_ne g p ob true e hep]
        exact h3
  | none =>
    rw [hfind] at hstep
    dsimp only at hstep
    cases henc : encompassingLoop p (createNode g p).obstacles with
    | none => rw [henc] at hstep; cases hstep
    | some enc =>
      rw [henc] at hstep
      dsimp only at hstep
      rw [addTouch_true_snd, if_neg Bool.false_ne_true] at hstep
      set g0 := createNode g p with hg0
      set g1 := (updateTouchesConcave g0 p enc).1 with hg1
      set g3 := (addTouch g1 p ob true).1 with hg3
      have hfind0 : findNode g0 p = some ⟨[], [], 0, []⟩ :=
        findNode_createNode_self g p hfind
      have hconns0 : connsOf g0 p = [] := by
        simp [connsOf, hfind0]
      have hinv0 : Inv g0 :=
        inv_transfer g g0 (fun r => connsOf_createNode g p r)
          (fun r hr => isSome_findNode_createNode_of g p r hr)
          (fun r hr => Or.inr (by rwa [concCountOf_createNode] at hr)) hinv
      have hinv1 : Inv g1 :=
        inv_transfer g0 g1 (fun r => connsOf_updateTouches g0 p enc r)
          (fun r hr => by rw [isSome_findNode_updateTouches]; exact hr)
          (fun r hr => by
            by_cases hrp : r = p
            · exact Or.inl (hrp ▸ hconns0)
            · exact Or.inr
                (by rwa [concCountOf_updateTouches_ne g0 p enc r hrp] at hr))
          hinv0
      have hinv3 : Inv g3 :=
        inv_transfer g1 g3 (fun r => connsOf_addTouch g1 p ob true r)
          (fun r hr => by rw [isSome_findNode_addTouch]; exact hr)
          (fun r hr => Or.inr (by rwa [concCountOf_addTouch_true] at hr)) hinv1
      have hsome1 : (findNode g1 p).isSome = true := by
        rw [isSome_findNode_updateTouches, hfind0]
        rfl
      have hsome3 : (findNode g3 p).isSome = true := by
        rw [isSome_findNode_addTouch]
        exact hsome1
      have hacc3 : ∀ e ∈ acc.2, (findNode g3 e).isSome = true ∧
          concCountOf g3 e = 0 ∧ ob.uid ∈ allTouchesOf g3 e := by
        intro e he
        obtain ⟨h1, h2, h3⟩ := hacc e he
        have hep : e ≠ p := by
          intro hep
          rw [hep, hfind] at h1
          simp at h1
        refine ⟨?_, ?_, ?_⟩
        · rw [isSome_findNode_addTouch, isSome_findNode_updateTouches]
          exact isSome_findNode_createNode_of g p e h1
        · rw [concCountOf_addTouch_true,
            concCountOf_updateTouches_ne g0 p enc e hep, concCountOf_createNode]
          exact h2
        · rw [allTouchesOf_addTouch_ne g1 p ob true e hep,
            allTouchesOf_updateTouches_ne g0 p enc e hep, allTouchesOf_createNode]
          exact h3
      cases hstep
      refine ⟨hinv3, ?_⟩
      intro e he
      by_cases hisc : (match findNode g3 p with
        | some d => decide (0 < d.concaveCount)
        | none => false) = true
      · rw [if_pos hisc] at he
        exact hacc3 e he
      · rw [if_neg hisc] at he
        rcases List.mem_append.mp he with he | he
        · exact hacc3 e he
        · have hep : e = p := by simpa using he
          subst hep
          cases hf3 : findNode g3 p with
          | none => rw [hf3] at hsome3; simp at hsome3
          | some d3 =>
            rw [hf3] at hisc
            have hcnt : d3.concaveCount = 0 := by
              simpa using hisc
            refine ⟨by simp, ?_, ?_⟩
            · rw [concCountOf_eq_of_findNode g3 p d3 hf3, hcnt]
            · cases hf1 : findNode g1 p with
              | none => rw [hf1] at hsome1; simp at hsome1
              | some d1 =>
                rw [allTouchesOf_addTouch_self g1 p ob true d1 hf1]
                exact List.mem_append_right _ (by simp)

theorem allTouchesOf_eq_of_findNode (g : GraphState) (p : Pair) (d : NodeData)
    (h : findNode g p = some d) : allTouchesOf g p = d.allTouches := by
  simp [allTouchesOf, h]

theorem acc_severAll (ob : Obst) (l : List Pair) (g : GraphState) (p : Pair)
    (h : ACC ob g l) : ACC ob (severAllConnections g p) l := by
  intro e he
  obtain ⟨h1, h2, h3⟩ := h e he
  exact ⟨by rw [isSome_findNode_severAll]; exact h1,
    by rw [concCountOf_severAll]; exact h2,
    by rw [allTouchesOf_severAll]; exact h3⟩

theorem acc_severConnection (ob : Obst) (l : List Pair) (g : GraphState)
    (p q : Pair) (h : ACC ob g l) : ACC ob (severConnection g p q) l := by
  intro e he
  obtain ⟨h1, h2, h3⟩ := h e he
  exact ⟨by rw [isSome_findNode_severConnection]; exact h1,
    by rw [concCountOf_severConnection]; exact h2,
    by rw [allTouchesOf_severConnection]; exact h3⟩

theorem acc_linkNodes (ob : Obst) (l : List Pair) (g : GraphState)
    (p q : Pair) (h : ACC ob g l) : ACC ob (linkNodes g p q) l := by
  intro e he
  obtain ⟨h1, h2, h3⟩ := h e he
  exact ⟨by rw [isSome_findNode_linkNodes]; exact h1,
    by rw [concCountOf_linkNodes]; exact h2,
    by rw [allTouchesOf_linkNodes]; exact h3⟩

theorem acc_addTouch (ob ob' : Obst) (l : List Pair) (g : GraphState)
    (p : Pair) (c : Bool) (hne : ∀ e ∈ l, e ≠ p) (h : ACC ob g l) :
    ACC ob (addTouch g p ob' c).1 l := by
  intro e he
  obtain ⟨h1, h2, h3⟩ := h e he
  refine ⟨by rw [isSome_findNode_addTouch]; exact h1, ?_, ?_⟩
  · cases c with
    | true => rw [concCountOf_addTouch_true]; exact h2
    | false => rw [concCountOf_addTouch_false_ne g p ob' e (hne e he)]; exact h2
  · rw [allTouchesOf_addTouch_ne g p ob' c e (hne e he)]
    exact h3

theorem phaseBStep_preserve (ob : Obst) (created : List Pair)
    (g g' : GraphState) (p : Pair)
    (h : Inv g ∧ ACC ob g created) (hstep : phaseBStep ob g p = .ok g') :
    Inv g' ∧ ACC ob g' created := by
  obtain ⟨hinv, hacc⟩ := h
  unfold phaseBStep at hstep
  cases hfind : findNode g p with
  | none =>
    rw [hfind] at hstep
    cases hstep
    exact ⟨hinv, hacc⟩
  | some d =>
    rw [hfind] at hstep
    dsimp only at hstep
    by_cases htouch : ob.uid ∈ d.allTouches
    · rw [if_pos htouch] at hstep
      cases hstep
      exact ⟨hinv, hacc⟩
    · rw [if_neg htouch] at hstep
      cases hip : Polygon.includesPoint ob.poly p.1 p.2 with
      | none => rw [hip] at hstep; cases hstep
      | some b =>
        rw [hip] at hstep
        cases b with
        | false => cases hstep; exact ⟨hinv, hacc⟩
        | true =>
          dsimp only at hstep
          rw [addTouch_false_snd g p ob d hfind] at hstep
          have hne : ∀ e ∈ created, e ≠ p := by
            intro e he hep
            obtain ⟨h1, h2, h3⟩ := hacc e he
            rw [hep, allTouchesOf_eq_of_findNode g p d hfind] at h3
            exact htouch h3
          by_cases hzero : d.concaveCount = 0
          · rw [if_pos (by simp [hzero])] at hstep
            cases hstep
            constructor
            · have hsymr : SymConns (addTouch g p ob false).1 :=
                sym_transfer g _ (connsOf_addTouch g p ob false) hinv.1
              have hclr : ClosedConns (addTouch g p ob false).1 :=
                closed_transfer g _ (connsOf_addTouch g p ob false)
                  (fun q hq => by rw [isSome_findNode_addTouch]; exact hq)
                  hinv.2.2
              refine ⟨sym_severAll _ p hsymr, ?_, closed_severAll _ p hclr⟩
              refine concIso_severAll_of _ p (fun a b hap hcnt hb => ?_)
              rw [concCountOf_addTouch_false_ne g p ob a hap] at hcnt
              rw [connsOf_addTouch] at hb
              exact hinv.2.1 a b hcnt hb
            · exact acc_severAll ob created _ p
                (acc_addTouch ob ob created g p false hne hacc)
          · rw [if_neg (by simp [hzero])] at hstep
            cases hstep
            constructor
            · refine inv_transfer g _ (connsOf_addTouch g p ob false)
                (fun q hq => by rw [isSome_findNode_addTouch]; exact hq)
                (fun a ha => ?_) hinv
              by_cases hap : a = p
              · subst hap
                refine Or.inr ?_
                rw [concCountOf_eq_of_findNode g a d hfind]
                omega
              · rw [concCountOf_addTouch_false_ne g p ob a hap] at ha
                exact Or.inr ha
            · exact acc_addTouch ob ob created g p false hne hacc

theorem phaseCInner_preserve (ob : Obst) (created : List Pair) (p : Pair)
    (g g' : GraphState) (q : Pair)
    (h : Inv g ∧ ACC ob g created) (hstep : phaseCInner ob p g q = .ok g') :
    Inv g' ∧ ACC ob g' created := by
  obtain ⟨hinv, hacc⟩ := h
  unfold phaseCInner at hstep
  cases hfind : findNode g p with
  | none =>
    rw [hfind] at hstep
    cases hstep
    exact ⟨hinv, hacc⟩
  | some d =>
    rw [hfind] at hstep
    dsimp only at hstep
    by_cases hcv : d.convexTouches.any (fun o => o.uid = ob.uid) = true
    · rw [if_pos hcv] at hstep
      cases htn : Polygon.vertexVectorDirectionTooNarrow ob.poly p
          (q.1 - p.1) (q.2 - p.2) with
      | none => rw [htn] at hstep; cases hstep
      | some b =>
        rw [htn] at hstep
        cases b with
        | true =>
          cases hstep
          exact ⟨inv_severConnection g p q hinv,
            acc_severConnection ob created g p q hacc⟩
        | false =>
          dsimp only at hstep
          by_cases hb : (graphRaycast g.obstacles (some ob) p.1 p.2 q.1 q.2).blocked = true
          · rw [if_pos hb] at hstep
            cases hstep
            exact ⟨inv_severConnection g p q hinv,
              acc_severConnection ob created g p q hacc⟩
          · rw [if_neg hb] at hstep
            cases hstep
            exact ⟨hinv, hacc⟩
    · rw [if_neg hcv] at hstep
      by_cases hb : (graphRaycast g.obstacles (some ob) p.1 p.2 q.1 q.2).blocked = true
      · rw [if_pos hb] at hstep
        cases hstep
        exact ⟨inv_severConnection g p q hinv,
          acc_severConnection ob created g p q hacc⟩
      · rw [if_neg hb] at hstep
        cases hstep
        exact ⟨hinv, hacc⟩

theorem phaseCStep_preserve (ob : Obst) (created : List Pair)
    (g g' : GraphState) (p : Pair)
    (h : Inv g ∧ ACC ob g created) (hstep : phaseCStep ob g p = .ok g') :
    Inv g' ∧ ACC ob g' created := by
  unfold phaseCStep at hstep
  cases hfind : findNode g p with
  | none =>
    rw [hfind] at hstep
    cases hstep
    exact h
  | some d =>
    rw [hfind] at hstep
    dsimp only at hstep
    by_cases hc : 0 < d.concaveCount
    · rw [if_pos hc] at hstep
      cases hstep
      exact h
    · rw [if_neg hc] at hstep
      exact exFold_preserve (phaseCInner ob p)
        (fun s => Inv s ∧ ACC ob s created) d.conns
        (fun s a _ s' hs hf => phaseCInner_preserve ob created p s s' a hs hf)
        g g' h hstep

theorem phaseDInner_preserve (ob : Obst) (created : List Pair) (p : Pair)
    (hp : p ∈ created) (g g' : GraphState) (q : Pair)
    (h : Inv g ∧ ACC ob g created) (hstep : phaseDInner ob p g q = .ok g') :
    Inv g' ∧ ACC ob g' created := by
  obtain ⟨hinv, hacc⟩ := h
  unfold phaseDInner at hstep
  by_cases hqp : q = p
  · rw [if_pos hqp] at hstep
    cases hstep
    exact ⟨hinv, hacc⟩
  · rw [if_neg hqp] at hstep
    cases hfq : findNode g q with
    | none =>
      rw [hfq] at hstep
      cases hfp : findNode g p with
      | none => rw [hfp] at hstep; cases hstep; exact ⟨hinv, hacc⟩
      | some dp => rw [hfp] at hstep; cases hstep; exact ⟨hinv, hacc⟩
    | some dq =>
      rw [hfq] at hstep
      cases hfp : findNode g p with
      | none => rw [hfp] at hstep; cases hstep; exact ⟨hinv, hacc⟩
      | some dp =>
        rw [hfp] at hstep
        dsimp only at hstep
        by_cases hcq : 0 < dq.concaveCount
        · rw [if_pos hcq] at hstep
          cases hstep
          exact ⟨hinv, hacc⟩
        · rw [if_neg hcq] at hstep
          by_cases hmem : q ∈ dp.conns
          · rw [if_pos hmem] at hstep
            cases hstep
            exact ⟨hinv, hacc⟩
          · rw [if_neg hmem] at hstep
            cases hn1 : anyTooNarrow p (q.1 - p.1) (q.2 - p.2) dp.convexTouches with
            | none => rw [hn1] at hstep; cases hstep
            | some b1 =>
              rw [hn1] at hstep
              cases b1 with
              | true => cases hstep; exact ⟨hinv, hacc⟩
              | false =>
                dsimp only at hstep
                cases hn2 : anyTooNarrow q (p.1 - q.1) (p.2 - q.2) dq.convexTouches with
                | none => rw [hn2] at hstep; cases hstep
                | some b2 =>
                  rw [hn2] at hstep
                  cases b2 with
                  | true => cases hstep; exact ⟨hinv, hacc⟩
                  | false =>
                    dsimp only at hstep
                    by_cases hb : (graphRaycast g.obstacles (some ob) p.1 p.2 q.1 q.2).blocked = true
                    · rw [if_pos hb] at hstep
                      cases hstep
                      exact ⟨hinv, hacc⟩
                    · rw [if_neg hb] at hstep
                      cases hstep
                      have hdp0 : dp.concaveCount = 0 := by
                        have := (hacc p hp).2.1
                        rw [concCountOf_eq_of_findNode g p dp hfp] at this
                        exact this
                      have hdq0 : dq.concaveCount = 0 := by omega
                      exact ⟨inv_linkNodes g p q dp dq (fun hpq => hqp hpq.symm)
                          hfp hfq hdp0 hdq0 hinv,
                        acc_linkNodes ob created g p q hacc⟩

theorem phaseDStep_preserve (ob : Obst) (created : List Pair)
    (g g' : GraphState) (p : Pair) (hp : p ∈ created)
    (h : Inv g ∧ ACC ob g created) (hstep : phaseDStep ob g p = .ok g') :
    Inv g' ∧ ACC ob g' created := by
  unfold phaseDStep at hstep
  exact exFold_preserve (phaseDInner ob p)
    (fun s => Inv s ∧ ACC ob s created) (g.nodes.map (fun e => e.1))
    (fun s a _ s' hs hf => phaseDInner_preserve ob created p hp s s' a hs hf)
    g g' h hstep

theorem addObstacle_preserves_inv (g g' : GraphState) (ob : Obst)
    (hinv : Inv g) (h : addObstacle g ob = .ok g') : Inv g' := by
  unfold addObstacle at h
  by_cases hdup : g.obstacles.any (fun o => o.uid = ob.uid) = true
  · rw [if_pos hdup] at h
    cases h
  · rw [if_neg hdup] at h
    cases hA : phaseA ob g with
    | error e => rw [hA] at h; cases h
    | ok pr =>
      rw [hA] at h
      obtain ⟨g1, created⟩ := pr
      dsimp only at h
      have hPA : Inv g1 ∧ ACC ob g1 created := by
        unfold phaseA at hA
        have := exFold_preserve (phaseAStep ob)
          (fun acc => Inv acc.1 ∧ ACC ob acc.1 acc.2) ob.poly.vertices
          (fun s a _ s' hs hf => phaseAStep_preserve ob a s s' hs hf)
          (g, []) (g1, created) ⟨hinv, fun e he => absurd he (by simp)⟩ hA
        exact this
      cases hB : phaseB ob g1 with
      | error e => rw [hB] at h; cases h
      | ok g2 =>
        rw [hB] at h
        dsimp only at h
        have hPB : Inv g2 ∧ ACC ob g2 created := by
          unfold phaseB at hB
          exact exFold_preserve (phaseBStep ob)
            (fun s => Inv s ∧ ACC ob s created) (g1.nodes.map (fun e => e.1))
            (fun s a _ s' hs hf => phaseBStep_preserve ob created s s' a hs hf)
            g1 g2 hPA hB
        cases hC : phaseC ob g2 with
        | error e => rw [hC] at h; cases h
        | ok g3 =>
          rw [hC] at h
          dsimp only at h
          have hPC : Inv g3 ∧ ACC ob g3 created := by
            unfold phaseC at hC
            exact exFold_preserve (phaseCStep ob)
              (fun s => Inv s ∧ ACC ob s created) (g2.nodes.map (fun e => e.1))
              (fun s a _ s' hs hf => phaseCStep_preserve ob created s s' a hs hf)
              g2 g3 hPB hC
          cases hD : phaseD ob g3 created with
          | error e => rw [hD] at h; cases h
          | ok g4 =>
            rw [hD] at h
            dsimp only at h
            have hPD : Inv g4 ∧ ACC ob g4 created := by
              unfold phaseD at hD
              exact exFold_preserve (phaseDStep ob)
                (fun s => Inv s ∧ ACC ob s created) created
                (fun s a ha s' hs hf =>
                  phaseDStep_preserve ob created s s' a ha hs hf)
                g3 g4 hPC hD
            cases h
            exact hPD.1

/-- Every reachable graph state satisfies the connection invariants. -/
theorem reachable_inv (g : GraphState) (h : Reachable g) : Inv g := by
  induction h with
  | init =>
    refine ⟨fun p q hq => ?_, fun p q hcnt hq => ?_, fun p q hq => ?_⟩ <;>
      simp [connsOf, findNode, emptyGraph] at hq
  | step hr hok ih => exact addObstacle_preserves_inv _ _ _ ih hok

theorem mem_connectionsMap (g : GraphState) (a b : Pair) (w : ℝ) :
    (b, w) ∈ connectionsMap g a ↔ b ∈ connsOf g a ∧ w = euclidDist a b := by
  unfold connectionsMap
  rw [List.mem_map]
  constructor
  · rintro ⟨q, hq, heq⟩
    rw [Prod.mk.injEq] at heq
    obtain ⟨rfl, rfl⟩ := heq
    exact ⟨hq, rfl⟩
  · rintro ⟨hb, rfl⟩
    exact ⟨b, hb, rfl⟩

theorem euclidDist_symm (a b : Pair) : euclidDist a b = euclidDist b a := by
  unfold euclidDist
  congr 1
  push_cast
  ring

/-- C2: in every graph state reachable by successful `add_obstacle` calls,
the connection relation is symmetric — `b` is mapped by `a`'s connections
iff `a` is mapped by `b`'s — and the weights the two sides record are
equal and equal the Euclidean distance between the two nodes. -/
theorem connections_symmetric_with_euclidean_weights (g : GraphState)
    (h : Reachable g) :
    ∀ a b : Pair,
      ((∃ w, (b, w) ∈ connectionsMap g a) ↔ ∃ w, (a, w) ∈ connectionsMap g b) ∧
      (∀ w w', (b, w) ∈ connectionsMap g a → (a, w') ∈ connectionsMap g b →
        w = w' ∧ w = euclidDist a b) := by
  obtain ⟨hsym, -, -⟩ := reachable_inv g h
  intro a b
  refine ⟨⟨?_, ?_⟩, ?_⟩
  · rintro ⟨w, hw⟩
    rw [mem_connectionsMap] at hw
    exact ⟨euclidDist b a, (mem_connectionsMap g b a _).mpr ⟨hsym a b hw.1, rfl⟩⟩
  · rintro ⟨w, hw⟩
    rw [mem_connectionsMap] at hw
    exact ⟨euclidDist a b, (mem_connectionsMap g a b _).mpr ⟨hsym b a hw.1, rfl⟩⟩
  · intro w w' hw hw'
    rw [mem_connectionsMap] at hw
    rw [mem_connectionsMap] at hw'
    refine ⟨?_, hw.2⟩
    rw [hw.2, hw'.2]
    exact euclidDist_symm a b

/-- C3: in every graph state reachable by successful `add_obstacle` calls,
a node whose concave flag is set (positive concave touch count) has an
empty connection set. -/
theorem concave_nodes_have_no_connections (g : GraphState) (h : Reachable g)
    (p : Pair) (d : NodeData) (hfind : findNode g p = some d)
    (hconc : 0 < d.concaveCount) : d.conns = [] := by
  obtain ⟨-, hiso, -⟩ := reachable_inv g h
  have hcnt : 0 < concCountOf g p := by
    rw [concCountOf_eq_of_findNode g p d hfind]
    exact hconc
  have hnone : ∀ q, q ∉ connsOf g p := fun q => hiso p q hcnt
  have hc : connsOf g p = d.conns := by simp [connsOf, hfind]
  rw [hc] at hnone
  exact List.eq_nil_iff_forall_not_mem.mpr hnone

/-! Concrete reachable states for the witnesses: the two overlapping
rectangles of the spec's "concave L" scenario (`Rectangle(0,0,3,1)` and
`Rectangle(0,1,1,3)` share the corner `(1,1)`, which becomes a concave
node). -/

/-- Extract the state from a successful `addObstacle` call. -/
def okOr : Except GraphState GraphState → GraphState
  | .ok s => s
  | .error s => s

def exObstA : Obst := ⟨1, mkRectangle 0 0 3 1⟩

def exObstB : Obst := ⟨2, mkRectangle 0 1 1 3⟩

def exGraph1 : GraphState := okOr (addObstacle emptyGraph exObstA)

def exGraph2 : GraphState := okOr (addObstacle exGraph1 exObstB)

theorem exGraph1_step : addObstacle emptyGraph exObstA = .ok exGraph1 := by
  with_unfolding_all rfl

theorem exGraph2_step : addObstacle exGraph1 exObstB = .ok exGraph2 := by
  with_unfolding_all rfl

theorem exGraph1_reachable : Reachable exGraph1 :=
  Reachable.step Reachable.init exGraph1_step

theorem exGraph2_reachable : Reachable exGraph2 :=
  Reachable.step exGraph1_reachable exGraph2_step

/-- The node data stored at the shared corner `(1, 1)` of the L. -/
def exCornerData : NodeData := (findNode exGraph2 (1, 1)).getD ⟨[], [], 0, []⟩

theorem exCorner_found : findNode exGraph2 (1, 1) = some exCornerData := by
  with_unfolding_all rfl

theorem exCorner_concave : 0 < exCornerData.concaveCount := by
  with_unfolding_all decide

/-- Witness for C2 at the one-rectangle graph and the corner pair
`(0,0)`, `(3,0)`. -/
theorem connections_symmetric_witness :
    Reachable exGraph1 ∧
      (((∃ w, (((3 : ℚ), (0 : ℚ)), w) ∈ connectionsMap exGraph1 ((0 : ℚ), (0 : ℚ))) ↔
        ∃ w, (((0 : ℚ), (0 : ℚ)), w) ∈ connectionsMap exGraph1 ((3 : ℚ), (0 : ℚ))) ∧
      (∀ w w', (((3 : ℚ), (0 : ℚ)), w) ∈ connectionsMap exGraph1 ((0 : ℚ), (0 : ℚ)) →
        (((0 : ℚ), (0 : ℚ)), w') ∈ connectionsMap exGraph1 ((3 : ℚ), (0 : ℚ)) →
        w = w' ∧ w = euclidDist ((0 : ℚ), (0 : ℚ)) ((3 : ℚ), (0 : ℚ)))) :=
  ⟨exGraph1_reachable,
    connections_symmetric_with_euclidean_weights exGraph1 exGraph1_reachable
      ((0 : ℚ), (0 : ℚ)) ((3 : ℚ), (0 : ℚ))⟩

/-- Witness for C3 at the concave corner `(1, 1)` of the L. -/
theorem concave_nodes_witness :
    Reachable exGraph2 ∧ findNode exGraph2 (1, 1) = some exCornerData ∧
      0 < exCornerData.concaveCount ∧ exCornerData.conns = [] :=
  ⟨exGraph2_reachable, exCorner_found, exCorner_concave,
    concave_nodes_have_no_connections exGraph2 exGraph2_reachable (1, 1)
      exCornerData exCorner_found exCorner_concave⟩

/-- C8: `add_obstacle` on a polygon already in the graph's obstacle set
fails the entry assertion (`assert obstacle not in self._obstacles`),
which runs before any mutation, so the error state is exactly the input
state — obstacle set, node table, touch sets and connections all
unchanged. -/
theorem duplicate_add_obstacle_fails_unchanged (g : GraphState) (ob : Obst)
    (h : ∃ o ∈ g.obstacles, o.uid = ob.uid) :
    addObstacle g ob = .error g := by
  unfold addObstacle
  rw [if_pos]
  obtain ⟨o, ho, he⟩ := h
  exact List.any_eq_true.mpr ⟨o, ho, by simp [he]⟩

/-- Witness for C8: re-inserting the rectangle already in `exGraph1`. -/
theorem duplicate_add_obstacle_witness :
    (∃ o ∈ exGraph1.obstacles, o.uid = exObstA.uid) ∧
      addObstacle exGraph1 exObstA = .error exGraph1 :=
  have hmem : ∃ o ∈ exGraph1.obstacles, o.uid = exObstA.uid := by
    with_unfolding_all decide
  ⟨hmem, duplicate_add_obstacle_fails_unchanged exGraph1 exObstA hmem⟩

/-- Counterexample to C7 as stated: for a general (non-`Rectangle`)
polygon, `includes_point` does not return the even-odd containment
verdict — it raises `NotImplementedError` (modelled as `none`) even for a
point strictly inside the polygon, here `(1, 1)` inside the triangle
`[(0,0), (4,0), (0,4)]`. -/
theorem general_includes_point_unimplemented :
    (mkPolygon [(0, 0), (4, 0), (0, 4)]).includesPoint 1 1 = none := rfl

/-- C7 (amended): `Polygon.includes_point` is unimplemented for a general
polygon and raises `NotImplementedError` for every point; the `Rectangle`
override returns `true` exactly when `left ≤ x ≤ right` and
`bottom ≤ y ≤ top`. -/
theorem includes_point_characterization :
    (∀ (ccw : List Pair) (x y : ℚ), (mkPolygon ccw).includesPoint x y = none) ∧
    (∀ (left bottom right top x y : ℚ),
      (mkRectangle left bottom right top).includesPoint x y
        = some (decide (left ≤ x ∧ x ≤ right ∧ bottom ≤ y ∧ y ≤ top))) := by
  constructor
  · intro ccw x y
    rfl
  · intro left bottom right top x y
    rfl

/-- Counterexample to C9 as stated: a zero-length polygon edge does
contribute a grazing segment when its degenerate vertex lies on the ray's
line: the edge at `(1, 0)` with direction `(0, 0)` grazes the ray from
`(0, 0)` along `(2, 0)` at parameter `1/2`. -/
theorem zero_length_edge_grazes :
    raycastSegment (0, 0) (2, 0) (1, 0) (0, 0)
      = .seg (1 / 2) (1 / 2) 1 := by
  with_unfolding_all decide

/-- C9 (amended): a zero-length edge (`t_d = (0, 0)`) never produces the
blocking verdict and raises no error; it reports no intersection unless
the degenerate vertex is colinear with the ray (`(t_o - r_o) × r_d = 0`,
with the ray direction non-zero) and its ray parameter interval meets
`[0, 1]`, in which case it contributes the degenerate grazing segment
`(clamped r_i, clamped r_i, +1)`. -/
theorem zero_length_edge_characterization (r_o r_d t_o : Pair) :
    raycastSegment r_o r_d t_o (0, 0) ≠ .crossed ∧
    raycastSegment r_o r_d t_o (0, 0)
      = (if crossProduct (vecSubtract t_o r_o) r_d ≠ 0 then .miss
         else if r_d = (0, 0) then .miss
         else
           let r_i := if |r_d.1| > |r_d.2| then (t_o.1 - r_o.1) / r_d.1
             else (t_o.2 - r_o.2) / r_d.2
           if r_i > 1 ∨ r_i < 0 then .miss
           else .seg (max 0 r_i) (min 1 r_i) 1) := by
  have hpar : crossProduct r_d (0, 0) = 0 := by
    simp [crossProduct]
  have hmain : raycastSegment r_o r_d t_o (0, 0)
      = (if crossProduct (vecSubtract t_o r_o) r_d ≠ 0 then .miss
         else if r_d = (0, 0) then .miss
         else
           let r_i := if |r_d.1| > |r_d.2| then (t_o.1 - r_o.1) / r_d.1
             else (t_o.2 - r_o.2) / r_d.2
           if r_i > 1 ∨ r_i < 0 then .miss
           else .seg (max 0 r_i) (min 1 r_i) 1) := by
    unfold raycastSegment
    rw [if_pos hpar]
    by_cases hcol : crossProduct (vecSubtract t_o r_o) r_d ≠ 0
    · rw [if_pos hcol, if_pos hcol]
    · rw [if_neg hcol, if_neg hcol]
      by_cases hax : |r_d.1| > |r_d.2|
      · have h1 : r_d.1 ≠ 0 := by
          intro h0
          rw [h0, abs_zero] at hax
          exact absurd hax (not_lt.mpr (abs_nonneg _))
        have hz1 : ¬ r_d = (0, 0) := fun h0 => h1 (by rw [h0])
        rw [if_neg hz1]
        simp [colinearSegmentsOverlappingRegion, hax, h1]
      · by_cases h2 : r_d.2 = 0
        · have h1 : r_d.1 = 0 := by
            rw [not_lt, h2, abs_zero] at hax
            exact abs_eq_zero.mp (le_antisymm hax (abs_nonneg _))
          have hz1 : r_d = (0, 0) := by
            cases r_d with
            | mk a b =>
              simp only at h1 h2
              rw [h1, h2]
          rw [if_pos hz1]
          simp [colinearSegmentsOverlappingRegion, hax, h2, h1]
        · have hz1 : ¬ r_d = (0, 0) := fun h0 => h2 (by rw [h0])
          rw [if_neg hz1]
          simp [colinearSegmentsOverlappingRegion, hax, h2]
  refine ⟨?_, hmain⟩
  rw [hmain]
  by_cases h1 : crossProduct (vecSubtract t_o r_o) r_d ≠ 0
  · rw [if_pos h1]
    simp
  · rw [if_neg h1]
    by_cases h2 : r_d = (0, 0)
    · rw [if_pos h2]
      simp
    · rw [if_neg h2]
      dsimp only
      split
      all_goals split <;> simp

/-- One axis of the colinear-overlap computation, as the specification
words it (§4.1): compute `k` and the ray-parameter interval `[r_i, r_f]`
on that axis, order it, tag the side with the sign of the overlap
direction, clamp to `[0, 1]` or report no intersection. -/
def specOverlapAxis (roAx rdAx toAx tdAx : ℚ) : RcRes :=
  let k := tdAx / rdAx
  let r_i := (toAx - roAx) / rdAx
  let r_f := r_i + k
  let lo := if k < 0 then r_f else r_i
  let hi := if k < 0 then r_i else r_f
  let side : ℤ := if k < 0 then -1 else 1
  if lo > 1 ∨ hi < 0 then .miss else .seg (max 0 lo) (min 1 hi) side

/-- The segment-intersection primitive exactly as the specification and
claim C5 word it, written independently of the code: blocked for a full
cross, a degenerate grazing segment when the ray passes a target endpoint,
the clamped overlap interval for parallel colinear segments "along
whichever axis of `Rd` is non-zero", and no intersection otherwise.  To be
compared with `raycastSegment`. -/
def raycastSegmentSpec (r_o r_d t_o t_d : Pair) : RcRes :=
  let c := crossProduct r_d t_d
  let delta := vecSubtract t_o r_o
  if c = 0 then
    if crossProduct delta r_d ≠ 0 then .miss
    else if r_d.1 ≠ 0 then specOverlapAxis r_o.1 r_d.1 t_o.1 t_d.1
    else if r_d.2 ≠ 0 then specOverlapAxis r_o.2 r_d.2 t_o.2 t_d.2
    else .miss
  else
    let r_t := crossProduct delta t_d / c
    let t_t := crossProduct delta r_d / c
    if 0 < r_t ∧ r_t < 1 ∧ 0 < t_t ∧ t_t < 1 then .crossed
    else if 0 < r_t ∧ r_t < 1 ∧ t_t = 0 then
      .seg r_t r_t (if c > 0 then 1 else -1)
    else if 0 < r_t ∧ r_t < 1 ∧ t_t = 1 then
      .seg r_t r_t (if c > 0 then -1 else 1)
    else .miss

theorem colinearRegion_axis0 (r_o r_d t_o t_d : Pair)
    (hax : |r_d.1| > |r_d.2|) :
    colinearSegmentsOverlappingRegion r_o r_d t_o t_d
      = specOverlapAxis r_o.1 r_d.1 t_o.1 t_d.1 := by
  have h1 : r_d.1 ≠ 0 := by
    intro h0
    rw [h0, abs_zero] at hax
    exact absurd hax (not_lt.mpr (abs_nonneg _))
  simp [colinearSegmentsOverlappingRegion, specOverlapAxis, hax, h1]

theorem colinearRegion_axis1 (r_o r_d t_o t_d : Pair)
    (hax : ¬ |r_d.1| > |r_d.2|) :
    colinearSegmentsOverlappingRegion r_o r_d t_o t_d
      = if r_d.2 = 0 then .miss
        else specOverlapAxis r_o.2 r_d.2 t_o.2 t_d.2 := by
  by_cases h2 : r_d.2 = 0
  · have h1 : r_d.1 = 0 := by
      have h := hax
      rw [not_lt, h2, abs_zero] at h
      exact abs_eq_zero.mp (le_antisymm h (abs_nonneg _))
    rw [if_pos h2]
    simp [colinearSegmentsOverlappingRegion, hax, h2, h1]
  · simp [colinearSegmentsOverlappingRegion, specOverlapAxis, hax, h2]

/-- For parallel colinear segments the overlap interval does not depend on
the evaluation axis: the axis the code picks (larger `|Rd|` component) and
the axis the spec picks (first non-zero component) agree. -/
theorem specOverlapAxis_agree (r_o r_d t_o t_d : Pair)
    (h1 : r_d.1 ≠ 0) (h2 : r_d.2 ≠ 0)
    (hpar : crossProduct r_d t_d = 0)
    (hcol : crossProduct (vecSubtract t_o r_o) r_d = 0) :
    specOverlapAxis r_o.1 r_d.1 t_o.1 t_d.1
      = specOverlapAxis r_o.2 r_d.2 t_o.2 t_d.2 := by
  unfold crossProduct at hpar
  unfold crossProduct vecSubtract at hcol
  have hk : t_d.1 / r_d.1 = t_d.2 / r_d.2 := by
    rw [div_eq_div_iff h1 h2]
    linear_combination -hpar
  have hri : (t_o.1 - r_o.1) / r_d.1 = (t_o.2 - r_o.2) / r_d.2 := by
    rw [div_eq_div_iff h1 h2]
    linear_combination hcol
  simp only [specOverlapAxis]
  rw [hk, hri]

/-- C5: `_raycast_segment` computes exactly the case analysis stated by
the specification (full cross ⇒ blocked; endpoint graze ⇒ degenerate
side-tagged segment; parallel colinear ⇒ clamped overlap interval;
no intersection otherwise). -/
theorem raycastSegment_eq_spec (r_o r_d t_o t_d : Pair) :
    raycastSegment r_o r_d t_o t_d = raycastSegmentSpec r_o r_d t_o t_d := by
  unfold raycastSegment raycastSegmentSpec
  dsimp only
  by_cases hc : crossProduct r_d t_d = 0
  · rw [if_pos hc, if_pos hc]
    by_cases hcol : crossProduct (vecSubtract t_o r_o) r_d ≠ 0
    · rw [if_pos hcol, if_pos hcol]
    · rw [if_neg hcol, if_neg hcol]
      have hcol' : crossProduct (vecSubtract t_o r_o) r_d = 0 := not_not.mp hcol
      by_cases hax : |r_d.1| > |r_d.2|
      · have h1 : r_d.1 ≠ 0 := by
          intro h0
          rw [h0, abs_zero] at hax
          exact absurd hax (not_lt.mpr (abs_nonneg _))
        rw [colinearRegion_axis0 r_o r_d t_o t_d hax, if_pos h1]
      · rw [colinearRegion_axis1 r_o r_d t_o t_d hax]
        by_cases h1 : r_d.1 = 0
        · rw [if_neg (not_not_intro h1)]
          by_cases h2 : r_d.2 = 0
          · rw [if_pos h2, if_neg (not_not_intro h2)]
          · rw [if_neg h2, if_pos h2]
        · have h2 : r_d.2 ≠ 0 := by
            intro h0
            rw [not_lt, h0, abs_zero] at hax
            exact h1 (abs_eq_zero.mp (le_antisymm hax (abs_nonneg _)))
          rw [if_neg h2, if_pos h1]
          exact (specOverlapAxis_agree r_o r_d t_o t_d h1 h2 hc hcol').symm
  · rw [if_neg hc, if_neg hc]
    set r_t := crossProduct (vecSubtract t_o r_o) t_d / crossProduct r_d t_d with hrt
    set t_t := crossProduct (vecSubtract t_o r_o) r_d / crossProduct r_d t_d with htt
    by_cases hr : 0 < r_t ∧ r_t < 1
    · rw [if_neg (not_not_intro hr)]
      by_cases ht : 0 < t_t ∧ t_t < 1
      · rw [if_pos ht,
          if_pos (show 0 < r_t ∧ r_t < 1 ∧ 0 < t_t ∧ t_t < 1 from
            ⟨hr.1, hr.2, ht.1, ht.2⟩)]
      · rw [if_neg ht,
          if_neg (show ¬ (0 < r_t ∧ r_t < 1 ∧ 0 < t_t ∧ t_t < 1) from
            fun h => ht ⟨h.2.2.1, h.2.2.2⟩)]
        by_cases ht0 : t_t = 0
        · rw [if_pos ht0,
            if_pos (show 0 < r_t ∧ r_t < 1 ∧ t_t = 0 from ⟨hr.1, hr.2, ht0⟩)]
        · rw [if_neg ht0,
            if_neg (show ¬ (0 < r_t ∧ r_t < 1 ∧ t_t = 0) from
              fun h => ht0 h.2.2)]
          by_cases ht1 : t_t = 1
          · rw [if_pos ht1,
              if_pos (show 0 < r_t ∧ r_t < 1 ∧ t_t = 1 from ⟨hr.1, hr.2, ht1⟩)]
          · rw [if_neg ht1,
              if_neg (show ¬ (0 < r_t ∧ r_t < 1 ∧ t_t = 1) from
                fun h => ht1 h.2.2)]
    · rw [if_pos hr,
        if_neg (show ¬ (0 < r_t ∧ r_t < 1 ∧ 0 < t_t ∧ t_t < 1) from
          fun h => hr ⟨h.1, h.2.1⟩),
        if_neg (show ¬ (0 < r_t ∧ r_t < 1 ∧ t_t = 0) from
          fun h => hr ⟨h.1, h.2.1⟩),
        if_neg (show ¬ (0 < r_t ∧ r_t < 1 ∧ t_t = 1) from
          fun h => hr ⟨h.1, h.2.1⟩)]

/-- The ordering `add_segment` keeps its stored list in: starts are
strictly increasing (hence pairwise distinct). -/
def SegSorted (l : List RSeg) : Prop :=
  List.Pairwise (fun a b : RSeg => a.1 < b.1) l

/-- On a sorted list, the bisect position of the probe `(start, -inf, -2)`
is the length of the prefix of segments with smaller start. -/
theorem segBisectLeft_eq_takeWhile (segs : List RSeg) (st : ℚ)
    (hs : SegSorted segs) :
    segBisectLeft segs st
      = (segs.takeWhile (fun e => decide (e.1 < st))).length := by
  have hdc : ∀ i j (hi : i < segs.length) (hj : j < segs.length), i ≤ j →
      (fun e : RSeg => decide (e.1 < st)) (segs.get ⟨j, hj⟩) = true →
      (fun e : RSeg => decide (e.1 < st)) (segs.get ⟨i, hi⟩) = true := by
    intro i j hi hj hij hp
    simp only [decide_eq_true_eq] at hp ⊢
    rcases Nat.eq_or_lt_of_le hij with rfl | hlt
    · exact hp
    · exact lt_trans (List.pairwise_iff_get.mp hs ⟨i, hi⟩ ⟨j, hj⟩ hlt) hp
  exact bisectLeft_eq segs _ _ (List.takeWhile_sublist _).length_le
    (takeWhile_prefix_iff (fun e : RSeg => decide (e.1 < st)) segs hdc)

/-- Indexwise: an element sits before the bisect position exactly when its
start is below the probe's. -/
theorem segBisectLeft_prefix_iff (segs : List RSeg) (st : ℚ)
    (hs : SegSorted segs) :
    ∀ i (hi : i < segs.length),
      ((segs.get ⟨i, hi⟩).1 < st ↔ i < segBisectLeft segs st) := by
  intro i hi
  rw [segBisectLeft_eq_takeWhile segs st hs]
  have hdc : ∀ i j (hi : i < segs.length) (hj : j < segs.length), i ≤ j →
      (fun e : RSeg => decide (e.1 < st)) (segs.get ⟨j, hj⟩) = true →
      (fun e : RSeg => decide (e.1 < st)) (segs.get ⟨i, hi⟩) = true := by
    intro i j hi hj hij hp
    simp only [decide_eq_true_eq] at hp ⊢
    rcases Nat.eq_or_lt_of_le hij with rfl | hlt
    · exact hp
    · exact lt_trans (List.pairwise_iff_get.mp hs ⟨i, hi⟩ ⟨j, hj⟩ hlt) hp
  simpa using
    takeWhile_prefix_iff (fun e : RSeg => decide (e.1 < st)) segs hdc i hi

theorem segBisectLeft_bounds (segs : List RSeg) (st : ℚ)
    (hs : SegSorted segs) :
    (∀ e ∈ segs.take (segBisectLeft segs st), e.1 < st) ∧
    (∀ e ∈ segs.drop (segBisectLeft segs st), st ≤ e.1) := by
  constructor
  · intro e he
    obtain ⟨⟨i, hi⟩, hget⟩ := List.mem_iff_get.mp he
    have hi2 : i < min (segBisectLeft segs st) segs.length := by
      simpa using hi
    have hin : i < segBisectLeft segs st := (lt_min_iff.mp hi2).1
    have hilen : i < segs.length := (lt_min_iff.mp hi2).2
    have hval : (segs.take (segBisectLeft segs st)).get ⟨i, hi⟩
        = segs.get ⟨i, hilen⟩ := by
      simp [List.getElem_take]
    rw [← hget, hval]
    exact (segBisectLeft_prefix_iff segs st hs i hilen).mpr hin
  · intro e he
    obtain ⟨⟨j, hj⟩, hget⟩ := List.mem_iff_get.mp he
    have hj2 : j < segs.length - segBisectLeft segs st := by
      simpa using hj
    have hjlen : segBisectLeft segs st + j < segs.length := by omega
    have hval : (segs.drop (segBisectLeft segs st)).get ⟨j, hj⟩
        = segs.get ⟨segBisectLeft segs st + j, hjlen⟩ := by
      simp [List.getElem_drop]
    rw [← hget, hval]
    by_contra hlt
    rw [not_le] at hlt
    exact absurd ((segBisectLeft_prefix_iff segs st hs _ hjlen).mp hlt)
      (by omega)

/-- The merging walk, when it terminates without a side conflict, leaves a
suffix whose starts all strictly exceed the added start, still sorted. -/
theorem mergeLoop_sound (start : ℚ) (side : ℤ) :
    ∀ (rest : List RSeg) (stop stop' : ℚ) (rest' : List RSeg),
      (∀ e ∈ rest, start ≤ e.1) → SegSorted rest →
      mergeLoop start side stop rest = some (stop', rest') →
      (∀ e ∈ rest', start < e.1) ∧ SegSorted rest'
  | [], stop, stop', rest', _, _, h => by
    unfold mergeLoop at h
    cases h
    exact ⟨by simp, List.Pairwise.nil⟩
  | (ps, pp, psd) :: t, stop, stop', rest', hge, hsrt, h => by
    unfold mergeLoop at h
    by_cases hgt : ps > start
    · rw [if_pos hgt] at h
      cases h
      refine ⟨?_, hsrt⟩
      intro e he
      rcases List.mem_cons.mp he with rfl | he
      · exact hgt
      · exact lt_trans hgt ((List.pairwise_cons.mp hsrt).1 e he)
    · rw [if_neg hgt] at h
      by_cases hside : psd ≠ side
      · rw [if_pos hside] at h
        cases h
      · rw [if_neg hside] at h
        have hps : start = ps :=
          le_antisymm (hge (ps, pp, psd) (List.mem_cons_self _ _)) (not_lt.mp hgt)
        refine mergeLoop_sound start side t (max stop pp) stop' rest' ?_
          (List.pairwise_cons.mp hsrt).2 h
        intro e he
        exact le_of_lt (hps ▸ (List.pairwise_cons.mp hsrt).1 e he)

/-- A non-blocking `add_segment` keeps the stored list sorted with
strictly increasing starts. -/
theorem addSegment_ok_sorted (segs : List RSeg) (st sp : ℚ) (sd : ℤ)
    (hs : SegSorted segs) (l' : List RSeg)
    (h : ((RaycastResult.mk (some segs)).addSegment (st, sp, sd)).1.segments
      = some l') :
    SegSorted l' := by
  unfold RaycastResult.addSegment at h
  dsimp only at h
  cases hm : mergeLoop st sd sp (segs.drop (segBisectLeft segs st)) with
  | none =>
    rw [hm] at h
    cases h
  | some pr =>
    obtain ⟨stop', rest'⟩ := pr
    rw [hm] at h
    dsimp only at h
    obtain ⟨hpre, hpost⟩ := segBisectLeft_bounds segs st hs
    have hrestSorted : SegSorted (segs.drop (segBisectLeft segs st)) :=
      List.Pairwise.sublist (List.drop_sublist _ _) hs
    obtain ⟨hafter, hafterSorted⟩ :=
      mergeLoop_sound st sd _ sp stop' rest' hpost hrestSorted hm
    have hl : segs.take (segBisectLeft segs st) ++ (st, stop', sd) :: rest'
        = l' := by
      injection h
    rw [← hl]
    show List.Pairwise (fun a b : RSeg => a.1 < b.1)
      (segs.take (segBisectLeft segs st) ++ (st, stop', sd) :: rest')
    rw [List.pairwise_append]
    refine ⟨List.Pairwise.sublist (List.take_sublist _ _) hs, ?_, ?_⟩
    · rw [List.pairwise_cons]
      exact ⟨fun e he => hafter e he, hafterSorted⟩
    · intro a ha b hb
      rcases List.mem_cons.mp hb with rfl | hb
      · exact hpre a ha
      · exact lt_trans (hpre a ha) (hafter b hb)

/-- Adding a segment whose start equals a stored segment's start with a
different side makes the result blocked: on the sorted list the bisect
position is exactly the stored segment's index, the merge walk examines it
first, and the side conflict blocks. -/
theorem addSegment_conflict_blocked (segs : List RSeg) (hs : SegSorted segs)
    (st pp sp : ℚ) (psd sd : ℤ) (hmem : (st, pp, psd) ∈ segs)
    (hside : psd ≠ sd) :
    (RaycastResult.mk (some segs)).addSegment (st, sp, sd) = (⟨none⟩, true) := by
  obtain ⟨⟨m, hm⟩, hget⟩ := List.mem_iff_get.mp hmem
  have hstm : (segs.get ⟨m, hm⟩).1 = st := by
    rw [hget]
  have hn : segBisectLeft segs st = m := by
    apply bisectLeft_eq segs _ m (le_of_lt hm)
    intro i hi
    simp only [decide_eq_true_eq]
    constructor
    · intro hp
      by_contra hge
      rw [not_lt] at hge
      rcases Nat.eq_or_lt_of_le hge with rfl | hlt
      · rw [hstm] at hp
        exact lt_irrefl st hp
      · have := List.pairwise_iff_get.mp hs ⟨m, hm⟩ ⟨i, hi⟩ hlt
        rw [hstm] at this
        exact absurd hp (not_lt.mpr (le_of_lt this))
    · intro him
      have := List.pairwise_iff_get.mp hs ⟨i, hi⟩ ⟨m, hm⟩ him
      rw [hstm] at this
      exact this
  have hmerge : mergeLoop st sd sp (segs.drop (segBisectLeft segs st))
      = none := by
    rw [hn, ← List.get_cons_drop segs ⟨m, hm⟩, hget]
    unfold mergeLoop
    rw [if_neg (lt_irrefl st), if_pos hside]
  unfold RaycastResult.addSegment
  dsimp only
  rw [hmerge]


/-- The merging walk halts at once when every remaining start strictly
exceeds the added start, returning the stop and suffix unchanged. -/
theorem mergeLoop_halt (start : ℚ) (side : ℤ) (stop : ℚ) (l : List RSeg)
    (h : ∀ e ∈ l, start < e.1) :
    mergeLoop start side stop l = some (stop, l) := by
  cases l with
  | nil => rfl
  | cons a t =>
    obtain ⟨ps, pp, psd⟩ := a
    unfold mergeLoop
    rw [if_pos (h (ps, pp, psd) (List.mem_cons_self _ _))]

/-- On a sorted list the bisect position of the probe is the index of the
segment whose start equals the probe's, when one exists. -/
theorem segBisectLeft_at_index (segs : List RSeg) (hs : SegSorted segs)
    (st : ℚ) (m : ℕ) (hm : m < segs.length)
    (hstm : (segs.get ⟨m, hm⟩).1 = st) :
    segBisectLeft segs st = m := by
  apply bisectLeft_eq segs _ m (le_of_lt hm)
  intro i hi
  simp only [decide_eq_true_eq]
  constructor
  · intro hp
    by_contra hge
    rw [not_lt] at hge
    rcases Nat.eq_or_lt_of_le hge with rfl | hlt
    · rw [hstm] at hp
      exact lt_irrefl st hp
    · have := List.pairwise_iff_get.mp hs ⟨m, hm⟩ ⟨i, hi⟩ hlt
      rw [hstm] at this
      exact absurd hp (not_lt.mpr (le_of_lt this))
  · intro him
    have := List.pairwise_iff_get.mp hs ⟨i, hi⟩ ⟨m, hm⟩ him
    rw [hstm] at this
    exact this

/-- When no stored segment shares the added start, `add_segment` inserts
the added segment verbatim at the bisect position: every stored segment —
in particular any whose interval overlaps the added one — is kept
unchanged, nothing is merged, and the result is not blocked. -/
theorem addSegment_no_equal_start (segs : List RSeg) (hs : SegSorted segs)
    (st sp : ℚ) (sd : ℤ) (hne : ∀ e ∈ segs, e.1 ≠ st) :
    (RaycastResult.mk (some segs)).addSegment (st, sp, sd)
      = (⟨some (segs.take (segBisectLeft segs st) ++ (st, sp, sd) ::
          segs.drop (segBisectLeft segs st))⟩, false) := by
  have hmerge : mergeLoop st sd sp (segs.drop (segBisectLeft segs st))
      = some (sp, segs.drop (segBisectLeft segs st)) := by
    apply mergeLoop_halt
    intro e he
    have hge : st ≤ e.1 := (segBisectLeft_bounds segs st hs).2 e he
    exact lt_of_le_of_ne hge (Ne.symm (hne e (List.mem_of_mem_drop he)))
  unfold RaycastResult.addSegment
  dsimp only
  rw [hmerge]

/-- When a stored segment shares the added start with the same side,
`add_segment` merges exactly that segment: it is replaced by the added
start with stop extended to the maximum, every other stored segment is
kept unchanged, and the result is not blocked. -/
theorem addSegment_merge_equal_start (segs : List RSeg) (hs : SegSorted segs)
    (st pp sp : ℚ) (sd : ℤ) (hmem : (st, pp, sd) ∈ segs) :
    (RaycastResult.mk (some segs)).addSegment (st, sp, sd)
      = (⟨some (segs.take (segBisectLeft segs st) ++ (st, max sp pp, sd) ::
          segs.drop (segBisectLeft segs st + 1))⟩, false) := by
  obtain ⟨⟨m, hm⟩, hget⟩ := List.mem_iff_get.mp hmem
  have hstm : (segs.get ⟨m, hm⟩).1 = st := by rw [hget]
  have hn : segBisectLeft segs st = m :=
    segBisectLeft_at_index segs hs st m hm hstm
  have hdropm : segs.drop m = (st, pp, sd) :: segs.drop (m + 1) := by
    rw [← List.get_cons_drop segs ⟨m, hm⟩, hget]
  have hafter : ∀ e ∈ segs.drop (m + 1), st < e.1 := by
    have hsd : SegSorted (segs.drop m) :=
      List.Pairwise.sublist (List.drop_sublist _ _) hs
    rw [hdropm] at hsd
    exact fun e he => (List.pairwise_cons.mp hsd).1 e he
  have hmerge : mergeLoop st sd sp (segs.drop (segBisectLeft segs st))
      = some (max sp pp, segs.drop (m + 1)) := by
    rw [hn, hdropm]
    unfold mergeLoop
    rw [if_neg (lt_irrefl st), if_neg (not_not_intro rfl)]
    exact mergeLoop_halt st sd (max sp pp) _ hafter
  unfold RaycastResult.addSegment
  dsimp only
  rw [hmerge, hn]

/-- Blocking is conservative: a blocked outcome on a stored list can only
come from an equal-start stored segment of a different side. -/
theorem addSegment_blocked_equal_conflict (segs : List RSeg)
    (hs : SegSorted segs) (st sp : ℚ) (sd : ℤ)
    (hb : (((RaycastResult.mk (some segs)).addSegment (st, sp, sd)).1).blocked
      = true) :
    ∃ pp psd, ((st, pp, psd) : RSeg) ∈ segs ∧ psd ≠ sd := by
  by_cases hex : ∃ pp psd, ((st, pp, psd) : RSeg) ∈ segs
  · obtain ⟨pp, psd, hmem⟩ := hex
    by_cases hsd : psd = sd
    · subst hsd
      rw [addSegment_merge_equal_start segs hs st pp sp psd hmem] at hb
      simp [RaycastResult.blocked] at hb
    · exact ⟨pp, psd, hmem, hsd⟩
  · have hne : ∀ e ∈ segs, e.1 ≠ st := by
      intro e he hee
      refine hex ⟨e.2.1, e.2.2, ?_⟩
      have hfull : e = ((st, e.2.1, e.2.2) : RSeg) := by
        rw [← hee]
      rw [← hfull]
      exact he
    rw [addSegment_no_equal_start segs hs st sp sd hne] at hb
    simp [RaycastResult.blocked] at hb

/-- A sorted stored list holds at most one segment per start. -/
theorem equal_start_unique (segs : List RSeg) (hs : SegSorted segs)
    (st pp pp' : ℚ) (psd psd' : ℤ)
    (h1 : ((st, pp, psd) : RSeg) ∈ segs)
    (h2 : ((st, pp', psd') : RSeg) ∈ segs) :
    pp = pp' ∧ psd = psd' := by
  obtain ⟨⟨m, hm⟩, hg1⟩ := List.mem_iff_get.mp h1
  obtain ⟨⟨k, hk⟩, hg2⟩ := List.mem_iff_get.mp h2
  rcases lt_trichotomy m k with hlt | heq | hgt
  · have := List.pairwise_iff_get.mp hs ⟨m, hm⟩ ⟨k, hk⟩ hlt
    rw [hg1, hg2] at this
    exact absurd this (lt_irrefl st)
  · subst heq
    have h3 : ((st, pp, psd) : RSeg) = (st, pp', psd') := by
      rw [← hg1, ← hg2]
    injection h3 with h31 h32
    injection h32 with h33 h34
    exact ⟨h33, h34⟩
  · have := List.pairwise_iff_get.mp hs ⟨k, hk⟩ ⟨m, hm⟩ hgt
    rw [hg1, hg2] at this
    exact absurd this (lt_irrefl st)

/-- The `RaycastResult` states reachable by a sequence of `add_segment`
calls from a fresh result. -/
inductive RcReach : RaycastResult → Prop
  | init : RcReach RaycastResult.init
  | step (r : RaycastResult) (s : RSeg) : RcReach r → RcReach (r.addSegment s).1

/-- C4 (amended): across any sequence of `add_segment` calls the stored
list keeps strictly increasing starts (sorted by start, pairwise distinct
starts). Adding `(start, stop, side)` to a stored list: when no stored
segment shares the start, the added segment is inserted verbatim at the
bisect position and every stored segment — including any whose interval
overlaps the added one — is kept unchanged (nothing merged, not blocked);
when a stored segment shares the start (it is unique, by sortedness) and
carries a different side the result becomes blocked, and with the same
side exactly that segment is replaced by the added start with stop
extended to the maximum, everything else kept; the result becomes blocked
precisely when an equal-start stored segment carries a different side.
Once blocked, the result stays blocked and is neither grazed nor free.
This corrects the original claim, which asserted merging of every
overlapping segment and blocking on any overlapped different-side segment
— see the counterexample. -/
theorem add_segment_sorted_and_conflict_blocking (r : RaycastResult)
    (h : RcReach r) :
    (∀ l, r.segments = some l → SegSorted l) ∧
    (r.blocked = true → r.grazed = false ∧ r.free = false ∧
      ∀ s : RSeg, (r.addSegment s).1.blocked = true ∧ (r.addSegment s).2 = true) ∧
    (∀ (l : List RSeg) (st pp sp : ℚ) (psd sd : ℤ), r.segments = some l →
      (st, pp, psd) ∈ l → psd ≠ sd →
      (r.addSegment (st, sp, sd)).1.blocked = true) ∧
    (∀ (l : List RSeg) (st sp : ℚ) (sd : ℤ), r.segments = some l →
      (∀ e ∈ l, e.1 ≠ st) →
      r.addSegment (st, sp, sd)
        = (⟨some (l.take (segBisectLeft l st) ++ (st, sp, sd) ::
            l.drop (segBisectLeft l st))⟩, false)) ∧
    (∀ (l : List RSeg) (st pp sp : ℚ) (sd : ℤ), r.segments = some l →
      (st, pp, sd) ∈ l →
      r.addSegment (st, sp, sd)
        = (⟨some (l.take (segBisectLeft l st) ++ (st, max sp pp, sd) ::
            l.drop (segBisectLeft l st + 1))⟩, false)) ∧
    (∀ (l : List RSeg) (st sp : ℚ) (sd : ℤ), r.segments = some l →
      (r.addSegment (st, sp, sd)).1.blocked = true →
      ∃ pp psd, ((st, pp, psd) : RSeg) ∈ l ∧ psd ≠ sd) ∧
    (∀ (l : List RSeg) (st pp pp' : ℚ) (psd psd' : ℤ), r.segments = some l →
      (st, pp, psd) ∈ l → (st, pp', psd') ∈ l → pp = pp' ∧ psd = psd') := by
  have hsorted : ∀ l, r.segments = some l → SegSorted l := by
    induction h with
    | init =>
      intro l hl
      injection hl with hl
      rw [← hl]
      exact List.Pairwise.nil
    | step r0 s hr ih =>
      intro l' hl'
      obtain ⟨st, sp, sd⟩ := s
      obtain ⟨rseg⟩ := r0
      cases rseg with
      | none =>
        unfold RaycastResult.addSegment at hl'
        dsimp only at hl'
        cases hl'
      | some segs =>
        exact addSegment_ok_sorted segs st sp sd (ih segs rfl) l' hl'
  refine ⟨hsorted, ?_, ?_, ?_, ?_, ?_, ?_⟩
  · intro hb
    obtain ⟨rseg⟩ := r
    unfold RaycastResult.blocked at hb
    dsimp only at hb
    rw [Option.isNone_iff_eq_none] at hb
    subst hb
    refine ⟨rfl, rfl, ?_⟩
    intro s
    exact ⟨rfl, rfl⟩
  · intro l st pp sp psd sd hsegs hmem hside
    obtain ⟨rseg⟩ := r
    dsimp only at hsegs
    subst hsegs
    rw [addSegment_conflict_blocked l (hsorted l rfl) st pp sp psd sd hmem hside]
    rfl
  · intro l st sp sd hsegs hne
    obtain ⟨rseg⟩ := r
    dsimp only at hsegs
    subst hsegs
    exact addSegment_no_equal_start l (hsorted l rfl) st sp sd hne
  · intro l st pp sp sd hsegs hmem
    obtain ⟨rseg⟩ := r
    dsimp only at hsegs
    subst hsegs
    exact addSegment_merge_equal_start l (hsorted l rfl) st pp sp sd hmem
  · intro l st sp sd hsegs hb
    obtain ⟨rseg⟩ := r
    dsimp only at hsegs
    subst hsegs
    exact addSegment_blocked_equal_conflict l (hsorted l rfl) st sp sd hb
  · intro l st pp pp' psd psd' hsegs h1 h2
    obtain ⟨rseg⟩ := r
    dsimp only at hsegs
    subst hsegs
    exact equal_start_unique l (hsorted l rfl) st pp pp' psd psd' h1 h2

/-- Counterexample to C4 as stated: an added segment that overlaps a
stored one without sharing its start is neither merged nor detected as a
side conflict.  After `add_segment(0, 1, +1)` and `add_segment(1/2, 1/2,
-1)` the list holds two overlapping segments (`1/2` lies inside `[0, 1]`)
with different sides, yet the result is not blocked — so the stored list
is not kept pairwise disjoint, and an overlapped segment of different side
does not make the result blocked. -/
theorem add_segment_overlap_unmerged :
    ((RaycastResult.init.addSegment (0, 1, 1)).1.addSegment
        (1 / 2, 1 / 2, -1)).1.segments
      = some [(0, 1, 1), (1 / 2, 1 / 2, -1)] ∧
    ((RaycastResult.init.addSegment (0, 1, 1)).1.addSegment
        (1 / 2, 1 / 2, -1)).1.blocked = false ∧
    ((0 : ℚ) ≤ 1 / 2 ∧ (1 / 2 : ℚ) ≤ 1) ∧ (1 : ℤ) ≠ -1 := by
  refine ⟨?_, ?_, by norm_num, by decide⟩ <;> with_unfolding_all decide

/-- The reachable two-step result used as the witness. -/
def exRay : RaycastResult := (RaycastResult.init.addSegment (0, 1, 1)).1

/-- Witness for the amended C4 at a concrete reachable result. -/
theorem add_segment_sorted_witness :
    RcReach exRay ∧
      ((∀ l, exRay.segments = some l → SegSorted l) ∧
      (exRay.blocked = true → exRay.grazed = false ∧ exRay.free = false ∧
        ∀ s : RSeg, (exRay.addSegment s).1.blocked = true ∧
          (exRay.addSegment s).2 = true) ∧
      (∀ (l : List RSeg) (st pp sp : ℚ) (psd sd : ℤ),
        exRay.segments = some l → (st, pp, psd) ∈ l → psd ≠ sd →
        (exRay.addSegment (st, sp, sd)).1.blocked = true) ∧
      (∀ (l : List RSeg) (st sp : ℚ) (sd : ℤ), exRay.segments = some l →
        (∀ e ∈ l, e.1 ≠ st) →
        exRay.addSegment (st, sp, sd)
          = (⟨some (l.take (segBisectLeft l st) ++ (st, sp, sd) ::
              l.drop (segBisectLeft l st))⟩, false)) ∧
      (∀ (l : List RSeg) (st pp sp : ℚ) (sd : ℤ), exRay.segments = some l →
        (st, pp, sd) ∈ l →
        exRay.addSegment (st, sp, sd)
          = (⟨some (l.take (segBisectLeft l st) ++ (st, max sp pp, sd) ::
              l.drop (segBisectLeft l st + 1))⟩, false)) ∧
      (∀ (l : List RSeg) (st sp : ℚ) (sd : ℤ), exRay.segments = some l →
        (exRay.addSegment (st, sp, sd)).1.blocked = true →
        ∃ pp psd, ((st, pp, psd) : RSeg) ∈ l ∧ psd ≠ sd) ∧
      (∀ (l : List RSeg) (st pp pp' : ℚ) (psd psd' : ℤ),
        exRay.segments = some l → (st, pp, psd) ∈ l → (st, pp', psd') ∈ l →
        pp = pp' ∧ psd = psd')) :=
  ⟨RcReach.step RaycastResult.init (0, 1, 1) RcReach.init,
    add_segment_sorted_and_conflict_blocking exRay
      (RcReach.step RaycastResult.init (0, 1, 1) RcReach.init)⟩

/-- C6: `vertex_vector_direction_too_narrow` answers `true` exactly when
`(a × b) · (b × c)` is strictly negative, where `a` is the baked inbound
edge vector, `c` the outbound edge vector of the vertex, and `b = (x, y)`
the queried direction; in particular, whenever `b` is parallel to either
adjacent edge (one factor is zero) it answers `false` — the direction is
permitted, at the phase C edge-severing and phase D new-edge call sites
alike, which both consume this single boolean. -/
theorem too_narrow_iff_negative_product (P : Polygon) (v : Pair)
    (vert : Vertex) (h : P.vertexMap v = some vert) (bx yv : ℚ) :
    (P.vertexVectorDirectionTooNarrow v bx yv
        = some (decide (crossProduct vert.vecFromPrevVertex (bx, yv) *
            crossProduct (bx, yv) vert.vecToNextVertex < 0))) ∧
    ((crossProduct vert.vecFromPrevVertex (bx, yv) = 0 ∨
        crossProduct (bx, yv) vert.vecToNextVertex = 0) →
      P.vertexVectorDirectionTooNarrow v bx yv = some false) := by
  have hmain : P.vertexVectorDirectionTooNarrow v bx yv
      = some (decide (crossProduct vert.vecFromPrevVertex (bx, yv) *
          crossProduct (bx, yv) vert.vecToNextVertex < 0)) := by
    unfold Polygon.vertexVectorDirectionTooNarrow
    rw [h]
    simp [crossProduct]
  refine ⟨hmain, ?_⟩
  intro hz
  rw [hmain]
  rcases hz with hz | hz
  · simp [hz]
  · simp [hz]

/-- A concrete unit square and its baked vertex at the origin, for the C6
witness. -/
def exSquare : Polygon := mkPolygon [(0, 0), (1, 0), (1, 1), (0, 1)]

def exSquareVert : Vertex :=
  (exSquare.vertexMap (0, 0)).getD ⟨0, 0, true, (0, 0), (0, 0)⟩

theorem exSquare_vmap : exSquare.vertexMap (0, 0) = some exSquareVert := by
  with_unfolding_all rfl

/-- Witness for C6 at the square's origin corner with the diagonal
direction `(1, 1)` (which points into the interior angle). -/
theorem too_narrow_witness :
    exSquare.vertexMap (0, 0) = some exSquareVert ∧
      ((exSquare.vertexVectorDirectionTooNarrow (0, 0) 1 1
          = some (decide (crossProduct exSquareVert.vecFromPrevVertex (1, 1) *
              crossProduct (1, 1) exSquareVert.vecToNextVertex < 0))) ∧
        ((crossProduct exSquareVert.vecFromPrevVertex (1, 1) = 0 ∨
            crossProduct (1, 1) exSquareVert.vecToNextVertex = 0) →
          exSquare.vertexVectorDirectionTooNarrow (0, 0) 1 1 = some false)) :=
  ⟨exSquare_vmap,
    too_narrow_iff_negative_product exSquare (0, 0) exSquareVert
      exSquare_vmap 1 1⟩

/-- `graph.PathfindingNode`, restricted to the fields `AStarSets` reads
(`previous` never enters the set logic).  `uid` models Python's `id(n)`
appearing in the sort key: distinct for simultaneously live records; the
model hands out globally fresh ones, which refines that guarantee. -/
structure PFNode where
  point : Pair
  g : ℚ
  h : ℚ
  uid : ℕ
deriving DecidableEq, Repr

/-- `PathfindingNode.f = g + h`. -/
def PFNode.f (n : PFNode) : ℚ := n.g + n.h

/-- `AStarSets.open_sort_key(n) = (-n.f, n.g, n.point, id(n))`; Python
compares these tuples lexicographically, modelled with `Lex`. -/
def openSortKey (n : PFNode) : ℚ ×ₗ ℚ ×ₗ ℚ ×ₗ ℚ ×ₗ ℕ :=
  toLex (-n.f, toLex (n.g, toLex (n.point.1, toLex (n.point.2, n.uid))))

/-- `graph.AStarSets`: the open map keyed by point (a Python dict, in
insertion order), the closed set, the sorted open list, and the id
counter. -/
structure AStarSets where
  opened : List (Pair × PFNode)
  closed : List Pair
  sortedOpen : List PFNode
  nextId : ℕ
deriving DecidableEq, Repr

/-- `AStarSets()`. -/
def AStarSets.initSets : AStarSets := ⟨[], [], [], 0⟩

/-- `self.opened.get(point)`. -/
def lookupOpened (l : List (Pair × PFNode)) (p : Pair) : Option PFNode :=
  (l.find? (fun e => e.1 = p)).map (fun e => e.2)

/-- `del self.opened[point]` (the key is unique by the dict invariant). -/
def eraseKey (l : List (Pair × PFNode)) (p : Pair) : List (Pair × PFNode) :=
  l.filter (fun e => e.1 ≠ p)

/-- `del self.sorted_open[i]`. -/
def deleteAt (l : List PFNode) (i : ℕ) : List PFNode :=
  l.take i ++ l.drop (i + 1)

/-- `bisect.insort(self.sorted_open, pn, key=open_sort_key)`: CPython's
`insort_right`, i.e. insertion at the `bisect_right` position. -/
def insortRight (l : List PFNode) (x : PFNode) : List PFNode :=
  let i := bisectRight l (fun e => decide (¬ (openSortKey x < openSortKey e)))
  l.take i ++ x :: l.drop i

/-- `AStarSets.take_best`: pop the last (smallest `f`) record, move its
point from the open map to the closed set.  `none` models the
`IndexError`/`KeyError` of popping an empty list or a missing key. -/
def AStarSets.takeBest (s : AStarSets) : Option (PFNode × AStarSets) :=
  match s.sortedOpen.getLast? with
  | none => none
  | some pn =>
    match lookupOpened s.opened pn.point with
    | none => none
    | some _ =>
      some (pn,
        { s with
          sortedOpen := s.sortedOpen.dropLast
          opened := eraseKey s.opened pn.point
          closed := s.closed ++ [pn.point] })

/-- `AStarSets.open(PathfindingNode(point, g, h, previous))`.  The record
gets a fresh id; a proposed `g` not below the existing record's is
discarded; otherwise the existing record is removed from both structures
— `none` models the failure of `assert self.sorted_open[i] is existing` —
and the new record is inserted into both. -/
def AStarSets.openPoint (s : AStarSets) (p : Pair) (g h : ℚ) :
    Option AStarSets :=
  let pn : PFNode := ⟨p, g, h, s.nextId⟩
  match lookupOpened s.opened p with
  | some existing =>
    if g ≥ existing.g then some { s with nextId := s.nextId + 1 }
    else
      let i := bisectLeft s.sortedOpen
        (fun e => decide (openSortKey e < openSortKey existing))
      match s.sortedOpen.get? i with
      | some e' =>
        if e' = existing then
          some { s with
            sortedOpen := insortRight (deleteAt s.sortedOpen i) pn
            opened := eraseKey s.opened existing.point ++ [(p, pn)]
            nextId := s.nextId + 1 }
        else none
      | none => none
  | none =>
    some { s with
      sortedOpen := insortRight s.sortedOpen pn
      opened := s.opened ++ [(p, pn)]
      nextId := s.nextId + 1 }

/-- The `AStarSets` states reachable by any sequence of `open` and
(successful) `take_best` calls. -/
inductive AReach : AStarSets → Prop
  | init : AReach AStarSets.initSets
  | openStep {s s' : AStarSets} {p : Pair} {g h : ℚ} :
      AReach s → AStarSets.openPoint s p g h = some s' → AReach s'
  | takeStep {s s' : AStarSets} {pn : PFNode} :
      AReach s → AStarSets.takeBest s = some (pn, s') → AReach s'

/-- The bookkeeping invariant of `AStarSets`: the sorted list is strictly
sorted under the key; live ids are below the counter; the map and the
sorted list hold exactly the same records; each map entry's key is its
record's point; keys are unique. -/
def AInv (s : AStarSets) : Prop :=
  List.Pairwise (fun a b : PFNode => openSortKey a < openSortKey b)
    s.sortedOpen ∧
  (∀ e ∈ s.sortedOpen, e.uid < s.nextId) ∧
  (∀ n : PFNode, n ∈ s.sortedOpen ↔ (n.point, n) ∈ s.opened) ∧
  (∀ e ∈ s.opened, e.2.point = e.1) ∧
  (s.opened.map (fun e => e.1)).Nodup

theorem openSortKey_inj_uid (a b : PFNode)
    (h : openSortKey a = openSortKey b) : a.uid = b.uid := by
  unfold openSortKey at h
  rw [toLex_inj, Prod.mk.injEq] at h
  obtain ⟨-, h⟩ := h
  rw [toLex_inj, Prod.mk.injEq] at h
  obtain ⟨-, h⟩ := h
  rw [toLex_inj, Prod.mk.injEq] at h
  obtain ⟨-, h⟩ := h
  rw [toLex_inj, Prod.mk.injEq] at h
  exact h.2

/-- A strictly key-sorted list has no duplicate records. -/
theorem sortedOpen_nodup (l : List PFNode)
    (hs : List.Pairwise (fun a b : PFNode => openSortKey a < openSortKey b) l) :
    l.Nodup :=
  hs.imp (fun hlt heq => absurd (heq ▸ hlt) (lt_irrefl _))

theorem lookupOpened_mem (l : List (Pair × PFNode)) (p : Pair) (v : PFNode)
    (h : lookupOpened l p = some v) : (p, v) ∈ l := by
  unfold lookupOpened at h
  cases hf : l.find? (fun e => e.1 = p) with
  | none => rw [hf] at h; cases h
  | some e =>
    rw [hf] at h
    have hmem := List.mem_of_find?_eq_some hf
    have hkey : e.1 = p := by
      have := List.find?_some hf
      simpa using this
    have hval : e.2 = v := by
      injection h
    rw [← hkey, ← hval]
    exact hmem

theorem lookupOpened_eq_of_mem (l : List (Pair × PFNode))
    (hk : (l.map (fun e => e.1)).Nodup) (k : Pair) (v : PFNode)
    (hmem : (k, v) ∈ l) : lookupOpened l k = some v := by
  induction l with
  | nil => cases hmem
  | cons a t ih =>
    by_cases hak : a.1 = k
    · have hav : a = (k, v) := by
        rcases List.mem_cons.mp hmem with rfl | hmem'
        · rfl
        · exfalso
          have : k ∈ t.map (fun e => e.1) :=
            List.mem_map.mpr ⟨(k, v), hmem', rfl⟩
          rw [List.map_cons, List.nodup_cons] at hk
          exact hk.1 (hak ▸ this)
      unfold lookupOpened
      rw [List.find?_cons_of_pos _ (by simpa using hak), hav]
      rfl
    · have hmem' : (k, v) ∈ t := by
        rcases List.mem_cons.mp hmem with heq | hmem'
        · exact absurd (by rw [← heq]) hak
        · exact hmem'
      rw [List.map_cons, List.nodup_cons] at hk
      unfold lookupOpened at ih ⊢
      rw [List.find?_cons_of_neg _ (by simpa using hak)]
      exact ih hk.2 hmem'

theorem value_unique_of_nodup_keys (l : List (Pair × PFNode))
    (hk : (l.map (fun e => e.1)).Nodup) (k : Pair) (a b : PFNode)
    (ha : (k, a) ∈ l) (hb : (k, b) ∈ l) : a = b := by
  have h1 := lookupOpened_eq_of_mem l hk k a ha
  have h2 := lookupOpened_eq_of_mem l hk k b hb
  rw [h1] at h2
  injection h2

theorem bisectRight_eq_bisectLeft (l : List α) (pred : α → Bool) :
    bisectRight l pred = bisectLeft l pred := rfl

/-- On a strictly key-sorted list, the `bisect_left` of a member's key
lands exactly on the member. -/
theorem bisect_finds_member (l : List PFNode)
    (hs : List.Pairwise (fun a b : PFNode => openSortKey a < openSortKey b) l)
    (x : PFNode) (m : ℕ) (hm : m < l.length) (hx : l.get ⟨m, hm⟩ = x) :
    bisectLeft l (fun e => decide (openSortKey e < openSortKey x)) = m := by
  apply bisectLeft_eq l _ m (le_of_lt hm)
  intro i hi
  simp only [decide_eq_true_eq]
  constructor
  · intro hp
    by_contra hge
    rw [not_lt] at hge
    rcases Nat.eq_or_lt_of_le hge with rfl | hlt
    · rw [hx] at hp
      exact lt_irrefl _ hp
    · have := List.pairwise_iff_get.mp hs ⟨m, hm⟩ ⟨i, hi⟩ hlt
      rw [hx] at this
      exact absurd hp (asymm this)
  · intro him
    have := List.pairwise_iff_get.mp hs ⟨i, hi⟩ ⟨m, hm⟩ him
    rw [hx] at this
    exact this

/-- `insort_right` of a record whose key differs from every stored key
keeps the list strictly sorted; the members are the old members plus the
new record. -/
theorem insortRight_sorted (l : List PFNode) (x : PFNode)
    (hs : List.Pairwise (fun a b : PFNode => openSortKey a < openSortKey b) l)
    (hne : ∀ e ∈ l, openSortKey e ≠ openSortKey x) :
    List.Pairwise (fun a b : PFNode => openSortKey a < openSortKey b)
      (insortRight l x) ∧
    (∀ n : PFNode, n ∈ insortRight l x ↔ n = x ∨ n ∈ l) := by
  have hdc : ∀ i j (hi : i < l.length) (hj : j < l.length), i ≤ j →
      (fun e : PFNode => decide (¬ (openSortKey x < openSortKey e)))
        (l.get ⟨j, hj⟩) = true →
      (fun e : PFNode => decide (¬ (openSortKey x < openSortKey e)))
        (l.get ⟨i, hi⟩) = true := by
    intro i j hi hj hij hp
    simp only [decide_eq_true_eq, not_lt] at hp ⊢
    rcases Nat.eq_or_lt_of_le hij with rfl | hlt
    · exact hp
    · exact le_trans
        (le_of_lt (List.pairwise_iff_get.mp hs ⟨i, hi⟩ ⟨j, hj⟩ hlt)) hp
  have hpos := bisectLeft_eq l
    (fun e : PFNode => decide (¬ (openSortKey x < openSortKey e)))
    ((l.takeWhile
      (fun e : PFNode => decide (¬ (openSortKey x < openSortKey e)))).length)
    (List.takeWhile_sublist _).length_le
    (takeWhile_prefix_iff
      (fun e : PFNode => decide (¬ (openSortKey x < openSortKey e))) l hdc)
  set r := (l.takeWhile
    (fun e : PFNode => decide (¬ (openSortKey x < openSortKey e)))).length
    with hr
  have hiff := takeWhile_prefix_iff
    (fun e : PFNode => decide (¬ (openSortKey x < openSortKey e))) l hdc
  have hpre : ∀ e ∈ l.take r, openSortKey e < openSortKey x := by
    intro e he
    obtain ⟨⟨i, hi⟩, hget⟩ := List.mem_iff_get.mp he
    have hi2 : i < min r l.length := by simpa using hi
    have hin : i < r := (lt_min_iff.mp hi2).1
    have hilen : i < l.length := (lt_min_iff.mp hi2).2
    have hval : (l.take r).get ⟨i, hi⟩ = l.get ⟨i, hilen⟩ := by
      simp [List.getElem_take]
    have hle : ¬ (openSortKey x < openSortKey (l.get ⟨i, hilen⟩)) := by
      have := (hiff i hilen).mpr hin
      simpa using this
    rw [← hget, hval]
    rcases lt_or_eq_of_le (not_lt.mp hle) with hlt | heq
    · exact hlt
    · exact absurd heq (hne _ (List.get_mem l _ _))
  have hpost : ∀ e ∈ l.drop r, openSortKey x < openSortKey e := by
    intro e he
    obtain ⟨⟨j, hj⟩, hget⟩ := List.mem_iff_get.mp he
    have hj2 : j < l.length - r := by simpa using hj
    have hjlen : r + j < l.length := by omega
    have hval : (l.drop r).get ⟨j, hj⟩ = l.get ⟨r + j, hjlen⟩ := by
      simp [List.getElem_drop]
    have hnotin : ¬ (r + j < r) := by omega
    have := (hiff (r + j) hjlen)
    rw [← hget, hval]
    by_contra hcon
    rw [not_lt] at hcon
    have hcon2 : ¬ (openSortKey x < openSortKey (l.get ⟨r + j, hjlen⟩)) := by
      rcases lt_or_eq_of_le hcon with hlt | heq
      · exact asymm hlt
      · exact fun hlt => absurd heq (hne _ (List.get_mem l _ _))
    exact hnotin (this.mp (by simpa using hcon2))
  constructor
  · unfold insortRight
    rw [bisectRight_eq_bisectLeft, hpos]
    rw [List.pairwise_append]
    refine ⟨List.Pairwise.sublist (List.take_sublist _ _) hs, ?_, ?_⟩
    · rw [List.pairwise_cons]
      exact ⟨hpost, List.Pairwise.sublist (List.drop_sublist _ _) hs⟩
    · intro a ha b hb
      rcases List.mem_cons.mp hb with rfl | hb
      · exact hpre a ha
      · exact lt_trans (hpre a ha) (hpost b hb)
  · intro n
    unfold insortRight
    rw [bisectRight_eq_bisectLeft, hpos]
    constructor
    · intro hn
      rcases List.mem_append.mp hn with hn | hn
      · exact Or.inr ((List.take_sublist _ _).mem hn)
      · rcases List.mem_cons.mp hn with rfl | hn
        · exact Or.inl rfl
        · exact Or.inr ((List.drop_sublist _ _).mem hn)
    · rintro (rfl | hn)
      · exact List.mem_append.mpr (Or.inr (List.mem_cons_self _ _))
      · rcases List.mem_append.mp ((List.take_append_drop r l).symm ▸ hn)
          with hn | hn
        · exact List.mem_append.mpr (Or.inl hn)
        · exact List.mem_append.mpr (Or.inr (List.mem_cons_of_mem _ hn))

theorem lookupOpened_none (l : List (Pair × PFNode)) (p : Pair)
    (h : lookupOpened l p = none) : ∀ e ∈ l, e.1 ≠ p := by
  unfold lookupOpened at h
  cases hf : l.find? (fun e => e.1 = p) with
  | none =>
    intro e he
    have := List.find?_eq_none.mp hf e he
    simpa using this
  | some e => rw [hf] at h; cases h

/-- `open` on a state satisfying the invariant succeeds (in particular the
bisect assertion holds) and preserves the invariant. -/
theorem openPoint_some_and_inv (s : AStarSets) (hinv : AInv s) (p : Pair)
    (g h : ℚ) :
    ∃ s', s.openPoint p g h = some s' ∧ AInv s' := by
  obtain ⟨hsort, hids, hsync, hpt, hkeys⟩ := hinv
  unfold AStarSets.openPoint
  dsimp only
  cases hlk : lookupOpened s.opened p with
  | none =>
    have hfresh : ∀ e ∈ s.sortedOpen,
        openSortKey e ≠ openSortKey (⟨p, g, h, s.nextId⟩ : PFNode) := by
      intro e he heq
      have h1 := openSortKey_inj_uid _ _ heq
      have h2 := hids e he
      dsimp only at h1
      omega
    obtain ⟨hsort1, hmem1⟩ :=
      insortRight_sorted s.sortedOpen ⟨p, g, h, s.nextId⟩ hsort hfresh
    refine ⟨_, rfl, hsort1, ?_, ?_, ?_, ?_⟩
    · intro e he
      rcases (hmem1 e).mp he with rfl | he
      · exact Nat.lt_succ_self _
      · exact Nat.lt_succ_of_lt (hids e he)
    · intro n
      rw [hmem1 n]
      constructor
      · rintro (rfl | hn)
        · exact List.mem_append.mpr (Or.inr (by simp))
        · exact List.mem_append.mpr (Or.inl ((hsync n).mp hn))
      · intro hn
        rcases List.mem_append.mp hn with hn | hn
        · exact Or.inr ((hsync n).mpr hn)
        · simp only [List.mem_singleton] at hn
          left
          have : n = (⟨p, g, h, s.nextId⟩ : PFNode) := by
            have := congrArg Prod.snd hn
            simpa using this
          exact this
    · intro e he
      rcases List.mem_append.mp he with he | he
      · exact hpt e he
      · simp only [List.mem_singleton] at he
        rw [he]
    · rw [List.map_append]
      rw [List.nodup_append]
      refine ⟨hkeys, by simp, ?_⟩
      intro k hk1 hk2
      simp only [List.map_cons, List.map_nil, List.mem_singleton] at hk2
      obtain ⟨e, he, hke⟩ := List.mem_map.mp hk1
      exact lookupOpened_none s.opened p hlk e he (by rw [hke, hk2])
  | some existing =>
    dsimp only
    have hexm : (p, existing) ∈ s.opened := lookupOpened_mem _ _ _ hlk
    have hexpt : existing.point = p := hpt _ hexm
    by_cases hg : g ≥ existing.g
    · rw [if_pos hg]
      refine ⟨_, rfl, hsort, ?_, hsync, hpt, hkeys⟩
      intro e he
      exact Nat.lt_succ_of_lt (hids e he)
    · rw [if_neg hg]
      have hexsorted : existing ∈ s.sortedOpen :=
        (hsync existing).mpr (by rw [hexpt]; exact hexm)
      obtain ⟨⟨m, hm⟩, hget⟩ := List.mem_iff_get.mp hexsorted
      have hbis := bisect_finds_member s.sortedOpen hsort existing m hm hget
      rw [hbis, List.get?_eq_get hm, hget]
      dsimp only
      rw [if_pos rfl]
      have hdrop : s.sortedOpen.drop m
          = existing :: s.sortedOpen.drop (m + 1) := by
        rw [← List.get_cons_drop s.sortedOpen ⟨m, hm⟩, hget]
      have hdec : s.sortedOpen
          = s.sortedOpen.take m ++ existing :: s.sortedOpen.drop (m + 1) := by
        conv_lhs => rw [← List.take_append_drop m s.sortedOpen]
        rw [hdrop]
      have hnd : s.sortedOpen.Nodup := sortedOpen_nodup _ hsort
      have hbase_sub : (deleteAt s.sortedOpen m).Sublist s.sortedOpen := by
        unfold deleteAt
        conv_rhs => rw [hdec]
        exact List.Sublist.append_left (List.sublist_cons_self _ _) _
      have hbase_sorted :
          List.Pairwise (fun a b : PFNode => openSortKey a < openSortKey b)
            (deleteAt s.sortedOpen m) :=
        List.Pairwise.sublist hbase_sub hsort
      have hexnotbase : existing ∉ deleteAt s.sortedOpen m := by
        intro hmem
        have hnd2 := hnd
        rw [hdec, List.nodup_append] at hnd2
        unfold deleteAt at hmem
        rcases List.mem_append.mp hmem with hmem | hmem
        · exact hnd2.2.2 hmem (List.mem_cons_self _ _)
        · exact (List.nodup_cons.mp hnd2.2.1).1 hmem
      have hbase_mem : ∀ n : PFNode,
          n ∈ deleteAt s.sortedOpen m ↔ n ∈ s.sortedOpen ∧ n ≠ existing := by
        intro n
        constructor
        · intro hn
          refine ⟨hbase_sub.mem hn, ?_⟩
          rintro rfl
          exact hexnotbase hn
        · rintro ⟨hn, hne⟩
          rw [hdec] at hn
          unfold deleteAt
          rcases List.mem_append.mp hn with hn | hn
          · exact List.mem_append.mpr (Or.inl hn)
          · rcases List.mem_cons.mp hn with rfl | hn
            · exact absurd rfl hne
            · exact List.mem_append.mpr (Or.inr hn)
      have hbase_ids : ∀ e ∈ deleteAt s.sortedOpen m, e.uid < s.nextId :=
        fun e he => hids e (hbase_sub.mem he)
      have hfresh2 : ∀ e ∈ deleteAt s.sortedOpen m,
          openSortKey e ≠ openSortKey (⟨p, g, h, s.nextId⟩ : PFNode) := by
        intro e he heq
        have h1 := openSortKey_inj_uid _ _ heq
        have h2 := hbase_ids e he
        dsimp only at h1
        omega
      obtain ⟨hsort2, hmem2⟩ :=
        insortRight_sorted (deleteAt s.sortedOpen m) ⟨p, g, h, s.nextId⟩
          hbase_sorted hfresh2
      refine ⟨_, rfl, hsort2, ?_, ?_, ?_, ?_⟩
      · intro e he
        rcases (hmem2 e).mp he with rfl | he
        · exact Nat.lt_succ_self _
        · exact Nat.lt_succ_of_lt (hbase_ids e he)
      · intro n
        rw [hmem2 n, hbase_mem n, hexpt]
        constructor
        · rintro (rfl | ⟨hn, hne'⟩)
          · exact List.mem_append.mpr (Or.inr (by simp))
          · refine List.mem_append.mpr (Or.inl ?_)
            rw [eraseKey, List.mem_filter]
            refine ⟨(hsync n).mp hn, ?_⟩
            simp only [Bool.not_eq_true', decide_eq_false_iff_not, ne_eq,
              decide_not, decide_eq_true_eq]
            intro hpn
            exact hne' (value_unique_of_nodup_keys s.opened hkeys p n existing
              (hpn ▸ (hsync n).mp hn) hexm)
        · intro hn
          rcases List.mem_append.mp hn with hn | hn
          · rw [eraseKey, List.mem_filter] at hn
            refine Or.inr ⟨(hsync n).mpr hn.1, ?_⟩
            rintro rfl
            revert hn
            simp [hexpt]
          · simp only [List.mem_singleton] at hn
            left
            have := congrArg Prod.snd hn
            simpa using this
      · intro e he
        rcases List.mem_append.mp he with he | he
        · rw [eraseKey, List.mem_filter] at he
          exact hpt e he.1
        · simp only [List.mem_singleton] at he
          rw [he]
      · rw [List.map_append, List.nodup_append]
        refine ⟨List.Nodup.sublist
          (List.Sublist.map _ (List.filter_sublist _)) hkeys, by simp, ?_⟩
        intro k hk1 hk2
        simp only [List.map_cons, List.map_nil, List.mem_singleton] at hk2
        obtain ⟨e, he, hke⟩ := List.mem_map.mp hk1
        rw [eraseKey, List.mem_filter] at he
        revert he
        rw [hk2] at hke
        simp [hexpt, hke]

/-- `take_best` on a non-empty open set succeeds and preserves the
invariant. -/
theorem takeBest_some_and_inv (s : AStarSets) (hinv : AInv s)
    (hne : s.sortedOpen ≠ []) :
    ∃ pn s', s.takeBest = some (pn, s') ∧ AInv s' := by
  obtain ⟨hsort, hids, hsync, hpt, hkeys⟩ := hinv
  set x := s.sortedOpen.getLast hne with hx
  have hxm : x ∈ s.sortedOpen := List.getLast_mem hne
  have hxo : (x.point, x) ∈ s.opened := (hsync x).mp hxm
  have hlk : lookupOpened s.opened x.point = some x :=
    lookupOpened_eq_of_mem s.opened hkeys x.point x hxo
  have hnd : s.sortedOpen.Nodup := sortedOpen_nodup _ hsort
  have hdec : s.sortedOpen.dropLast ++ [x] = s.sortedOpen :=
    List.dropLast_append_getLast hne
  have hxnot : x ∉ s.sortedOpen.dropLast := by
    intro hmem
    have hnd2 := hnd
    rw [← hdec, List.nodup_append] at hnd2
    exact hnd2.2.2 hmem (List.mem_singleton_self x)
  unfold AStarSets.takeBest
  rw [List.getLast?_eq_getLast s.sortedOpen hne, ← hx]
  dsimp only
  rw [hlk]
  refine ⟨x, _, rfl, ?_, ?_, ?_, ?_, ?_⟩
  · exact List.Pairwise.sublist (List.dropLast_sublist _) hsort
  · exact fun e he => hids e ((List.dropLast_sublist _).mem he)
  · intro n
    constructor
    · intro hn
      have hnl : n ∈ s.sortedOpen := (List.dropLast_sublist _).mem hn
      have hnx : n ≠ x := by
        rintro rfl
        exact hxnot hn
      rw [eraseKey, List.mem_filter]
      refine ⟨(hsync n).mp hnl, ?_⟩
      simp only [Bool.not_eq_true', decide_eq_false_iff_not, ne_eq,
        decide_not, decide_eq_true_eq]
      intro hpn
      exact hnx (value_unique_of_nodup_keys s.opened hkeys x.point n x
        (hpn ▸ (hsync n).mp hnl) hxo)
    · intro hn
      rw [eraseKey, List.mem_filter] at hn
      have hnl : n ∈ s.sortedOpen := (hsync n).mpr hn.1
      have hnx : n ≠ x := by
        rintro rfl
        revert hn
        simp
      rw [← hdec] at hnl
      rcases List.mem_append.mp hnl with hn' | hn'
      · exact hn'
      · exact absurd (List.mem_singleton.mp hn') hnx
  · intro e he
    rw [eraseKey, List.mem_filter] at he
    exact hpt e he.1
  · exact List.Nodup.sublist (List.Sublist.map _ (List.filter_sublist _)) hkeys

/-- Every reachable `AStarSets` state satisfies the invariant. -/
theorem areach_inv (s : AStarSets) (h : AReach s) : AInv s := by
  induction h with
  | init =>
    refine ⟨List.Pairwise.nil, ?_, ?_, ?_, ?_⟩ <;>
      simp [AStarSets.initSets]
  | openStep hr hs ih =>
    rename_i s0 s' p g hq
    obtain ⟨s'', heq, hinv⟩ := openPoint_some_and_inv s0 ih p g hq
    rw [hs] at heq
    injection heq with heq
    rw [← heq] at hinv
    exact hinv
  | takeStep hr hs ih =>
    rename_i s0 s' pn
    by_cases hne : s0.sortedOpen = []
    · unfold AStarSets.takeBest at hs
      rw [hne] at hs
      cases hs
    · obtain ⟨pn', s'', heq, hinv⟩ := takeBest_some_and_inv s0 ih hne
      rw [hs] at heq
      injection heq with heq
      have h2 : s' = s'' := congrArg Prod.snd heq
      rw [h2]
      exact hinv

/-- C10: starting from a fresh `AStarSets`, under any sequence of `open`
and `take_best` calls (`take_best` only on a non-empty open set), the
`opened` map and `sorted_open` list hold exactly the same records with at
most one record per point, `sorted_open` stays sorted under
`open_sort_key`, and the bisect assertion inside `open` (and the lookups
inside `take_best`) can never fail. -/
theorem astar_sets_never_assert (s : AStarSets) (h : AReach s) :
    AInv s ∧ (∀ (p : Pair) (g hh : ℚ), (s.openPoint p g hh).isSome = true) ∧
    (s.sortedOpen ≠ [] → s.takeBest.isSome = true) := by
  have hinv := areach_inv s h
  refine ⟨hinv, ?_, ?_⟩
  · intro p g hh
    obtain ⟨s', heq, -⟩ := openPoint_some_and_inv s hinv p g hh
    rw [heq]
    rfl
  · intro hne
    obtain ⟨pn, s', heq, -⟩ := takeBest_some_and_inv s hinv hne
    rw [heq]
    rfl

/-- A concrete reachable `AStarSets` state: one record opened. -/
def exAStar : AStarSets :=
  (AStarSets.initSets.openPoint (0, 0) 1 2).getD AStarSets.initSets

theorem exAStar_step :
    AStarSets.initSets.openPoint (0, 0) 1 2 = some exAStar := rfl

theorem exAStar_reachable : AReach exAStar :=
  AReach.openStep AReach.init exAStar_step

/-- Witness for C10 at that concrete reachable state. -/
theorem astar_sets_never_assert_witness :
    AReach exAStar ∧
      (AInv exAStar ∧
        (∀ (p : Pair) (g hh : ℚ), (exAStar.openPoint p g hh).isSome = true) ∧
        (exAStar.sortedOpen ≠ [] → exAStar.takeBest.isSome = true)) :=
  ⟨exAStar_reachable, astar_sets_never_assert exAStar exAStar_reachable⟩

end MRVG
